import Mathlib

/-!
Verification of the markdown-to-Notion-block rendering and reconciliation
engine of `app/handlers/pdf_summary.py` (with the tree-store operations of
`app/services/notion_service.py`).  Text is modelled as `List Char`; the
Python functions are translated into executable Lean definitions and the
frozen claims are settled as theorems about those definitions.
-/

set_option maxHeartbeats 1000000

namespace GeminiNotion

/-- String literal to character list, for concrete inputs. -/
def str (s : String) : List Char := s.data

/-- ASCII whitespace as recognised by Python's `str.strip()` / `\s`
(restricted to the ASCII range, which is all that the claims exercise). -/
def isPySpace (c : Char) : Bool :=
  c = ' ' ∨ c = '\t' ∨ c = '\n' ∨ c = '\r' ∨ c = '\x0b' ∨ c = '\x0c'

/-- Python `str.rstrip()`: remove trailing whitespace. -/
def pyRstrip (l : List Char) : List Char :=
  ((l.reverse.dropWhile isPySpace)).reverse

/-- Python `str.strip()`: remove leading and trailing whitespace. -/
def pyStrip (l : List Char) : List Char :=
  pyRstrip (l.dropWhile isPySpace)

/-! ## Inline span tokenizer: `_parse_rich_text`

The Python function repeatedly takes, among the four regex patterns
(bold-italic, bold, italic, inline code, in that priority order), the one
whose `re.search` on the remaining text starts earliest (strictly earlier
to displace an earlier-listed pattern).  Each pattern is
delimiter + lazy non-newline content + delimiter. -/

/-- One Notion rich-text element, as built by `_parse_rich_text`.  The
source also stores constant fields strikethrough=False, underline=False,
color='default' on every element; these carry no information and are
omitted. -/
structure RichPart where
  content : List Char
  bold : Bool
  italic : Bool
  code : Bool
deriving DecidableEq, Repr

/-- A plain (unstyled) rich-text element. -/
def plainPart (s : List Char) : RichPart := ⟨s, false, false, false⟩

/-- Lazy search for the closing delimiter `d`: split `s` as
content ++ d ++ rest with the shortest newline-free content, exactly as the
lazy group of a pattern such as bold's (with '.' not matching newline). -/
def findClose (d : List Char) : List Char → Option (List Char × List Char)
  | [] => if d.isPrefixOf [] then some ([], []) else none
  | c :: rest =>
    if d.isPrefixOf (c :: rest) then some ([], (c :: rest).drop d.length)
    else if c = '\n' then none
    else (findClose d rest).map (fun p => (c :: p.1, p.2))

/-- Leftmost match of the delimiter pattern `d…d` in `s`, as `re.search`:
the smallest start index where `d` occurs and a newline-free close exists.
Returns (start, captured content, text after the match). -/
def findMatch (d : List Char) : List Char → Option (Nat × List Char × List Char)
  | [] => none
  | c :: rest =>
    if d.isPrefixOf (c :: rest) then
      match findClose d ((c :: rest).drop d.length) with
      | some p => some (0, p.1, p.2)
      | none => (findMatch d rest).map (fun m => (m.1 + 1, m.2.1, m.2.2))
    else (findMatch d rest).map (fun m => (m.1 + 1, m.2.1, m.2.2))

/-- A candidate match: start index, (bold, italic, code) annotations,
captured content, and the text remaining after the match. -/
structure Cand where
  start : Nat
  bold : Bool
  italic : Bool
  code : Bool
  content : List Char
  after : List Char
deriving DecidableEq, Repr

/-- The four markdown patterns of `_parse_rich_text`, in priority order:
delimiter together with the (bold, italic, code) annotation flags. -/
def patterns : List (List Char × Bool × Bool × Bool) :=
  [ (['*', '*', '*'], true, true, false),
    (['*', '*'], true, false, false),
    (['*'], false, true, false),
    (['`'], false, false, true) ]

/-- The candidate produced by one pattern on `s`, if it matches. -/
def candOf (p : List Char × Bool × Bool × Bool) (s : List Char) : Option Cand :=
  (findMatch p.1 s).map (fun m => ⟨m.1, p.2.1, p.2.2.1, p.2.2.2, m.2.1, m.2.2⟩)

/-- The selection step of the Python loop: a later pattern displaces the
current best only when its match starts strictly earlier. -/
def better (cur new : Option Cand) : Option Cand :=
  match new with
  | none => cur
  | some n =>
    match cur with
    | none => some n
    | some c => if n.start < c.start then some n else some c

/-- The earliest-starting match among the four patterns, ties resolved by
the priority order (bold-italic > bold > italic > inline code). -/
def findBest (s : List Char) : Option Cand :=
  ((patterns.map (fun p => candOf p s)).foldl better none)

/-- The main loop of `_parse_rich_text`, fuelled (each iteration consumes
at least two characters of the remaining text, so fuel = length always
suffices; adequacy is proved below). -/
def parseAux : Nat → List Char → List RichPart
  | 0, s => if s.isEmpty then [] else [plainPart s]
  | fuel + 1, s =>
    match findBest s with
    | none => if s.isEmpty then [] else [plainPart s]
    | some m =>
      (if (s.take m.start).isEmpty then [] else [plainPart (s.take m.start)]) ++
        (⟨m.content, m.bold, m.italic, m.code⟩ :: parseAux fuel m.after)

/-- `_parse_rich_text`: tokenize, drop empty-content parts, and fall back
to a single empty plain run when nothing remains. -/
def parseRichText (s : List Char) : List RichPart :=
  let parts := (parseAux s.length s).filter (fun p => !p.content.isEmpty)
  if parts.isEmpty then [plainPart []] else parts

/-- Concatenated plain text of a run sequence. -/
def richConcat (ps : List RichPart) : List Char :=
  (ps.map (fun p => p.content)).flatten

/-- Total rendered character count of a run sequence, as computed by
`_create_paragraph_from_text` (sum of the contents' lengths). -/
def totalRichLen (ps : List RichPart) : Nat :=
  (ps.map (fun p => p.content.length)).sum

/-! ## The marker-stripping relation

`MarkStrips s t` holds when `t` is obtained from `s` by deleting some
occurrences of the emphasis marker characters '*' and '`', keeping every
other character, in order.  This is the formal reading of "the input with
markdown marker characters removed but all other characters preserved in
order". -/

/-- `t` arises from `s` by dropping only marker characters. -/
inductive MarkStrips : List Char → List Char → Prop
  | nil : MarkStrips [] []
  | keep (c : Char) {s t : List Char} : MarkStrips s t → MarkStrips (c :: s) (c :: t)
  | drop {c : Char} {s t : List Char} (h : c = '*' ∨ c = '`') :
      MarkStrips s t → MarkStrips (c :: s) t

theorem markStrips_refl (s : List Char) : MarkStrips s s := by
  induction s with
  | nil => exact MarkStrips.nil
  | cons c s ih => exact MarkStrips.keep c ih

theorem markStrips_append {s₁ t₁ s₂ t₂ : List Char}
    (h₁ : MarkStrips s₁ t₁) (h₂ : MarkStrips s₂ t₂) :
    MarkStrips (s₁ ++ s₂) (t₁ ++ t₂) := by
  induction h₁ with
  | nil => simpa using h₂
  | keep c _ ih => exact MarkStrips.keep c ih
  | drop h _ ih => exact MarkStrips.drop h ih

theorem markStrips_dropAll {d : List Char} (h : ∀ c ∈ d, c = '*' ∨ c = '`') :
    MarkStrips d [] := by
  induction d with
  | nil => exact MarkStrips.nil
  | cons c d ih =>
    exact MarkStrips.drop (h c (List.mem_cons_self c d))
      (ih (fun x hx => h x (List.mem_cons_of_mem c hx)))

theorem markStrips_length {s t : List Char} (h : MarkStrips s t) :
    t.length ≤ s.length := by
  induction h with
  | nil => simp
  | keep c _ ih => simpa using Nat.succ_le_succ ih
  | drop _ _ ih => simpa using Nat.le_succ_of_le ih

/-! ## Decomposition of matches -/

theorem findClose_eq {d s c a : List Char} (h : findClose d s = some (c, a)) :
    s = c ++ d ++ a := by
  induction s generalizing c a with
  | nil =>
    simp only [findClose] at h
    split at h
    · rename_i hp
      have hd : d = [] := by
        have h1 := (List.isPrefixOf_iff_prefix.mp hp).length_le
        simpa using List.eq_nil_of_length_eq_zero (Nat.le_zero.mp (by simpa using h1))
      simp only [Option.some.injEq, Prod.mk.injEq] at h
      obtain ⟨rfl, rfl⟩ := h
      simp [hd]
    · simp at h
  | cons x rest ih =>
    simp only [findClose] at h
    split at h
    · rename_i hp
      simp only [Option.some.injEq, Prod.mk.injEq] at h
      obtain ⟨rfl, rfl⟩ := h
      obtain ⟨t, ht⟩ := List.isPrefixOf_iff_prefix.mp hp
      have hdrop : (x :: rest).drop d.length = t := by
        rw [← ht]; exact List.drop_left d t
      rw [hdrop, ← ht]
      simp
    · split at h
      · simp at h
      · match hc : findClose d rest with
        | none => rw [hc] at h; simp at h
        | some (c1, a1) =>
          rw [hc] at h
          simp only [Option.map_some', Option.some.injEq, Prod.mk.injEq] at h
          obtain ⟨rfl, rfl⟩ := h
          have h2 := ih hc
          simp [h2]

theorem findMatch_eq {d s c a : List Char} {i : Nat}
    (h : findMatch d s = some (i, c, a)) :
    s = s.take i ++ d ++ c ++ d ++ a := by
  induction s generalizing i c a with
  | nil => simp [findMatch] at h
  | cons x rest ih =>
    simp only [findMatch] at h
    split at h
    · rename_i hp
      match hc : findClose d ((x :: rest).drop d.length) with
      | some (c1, a1) =>
        rw [hc] at h
        simp only [Option.some.injEq, Prod.mk.injEq] at h
        obtain ⟨rfl, rfl, rfl⟩ := h
        obtain ⟨t, ht⟩ := List.isPrefixOf_iff_prefix.mp hp
        have hdrop : (x :: rest).drop d.length = t := by
          rw [← ht]; exact List.drop_left d t
        rw [hdrop] at hc
        have h2 := findClose_eq hc
        rw [List.take_zero, ← ht, h2]
        simp
      | none =>
        rw [hc] at h
        match hm : findMatch d rest with
        | none => rw [hm] at h; simp at h
        | some (i1, c1, a1) =>
          rw [hm] at h
          simp only [Option.map_some', Option.some.injEq, Prod.mk.injEq] at h
          obtain ⟨rfl, rfl, rfl⟩ := h
          have h2 := ih hm
          simp only [List.take_succ_cons, List.cons_append]
          exact congrArg (List.cons x) h2
    · match hm : findMatch d rest with
      | none => rw [hm] at h; simp at h
      | some (i1, c1, a1) =>
        rw [hm] at h
        simp only [Option.map_some', Option.some.injEq, Prod.mk.injEq] at h
        obtain ⟨rfl, rfl, rfl⟩ := h
        have h2 := ih hm
        simp only [List.take_succ_cons, List.cons_append]
        exact congrArg (List.cons x) h2

theorem foldl_better_some {l : List (Option Cand)} {acc : Option Cand} {c : Cand}
    (h : l.foldl better acc = some c) : acc = some c ∨ some c ∈ l := by
  induction l generalizing acc with
  | nil => exact Or.inl h
  | cons x l ih =>
    rcases ih (by simpa using h) with h' | h'
    · match x with
      | none => exact Or.inl h'
      | some n =>
        match acc with
        | none =>
          simp only [better] at h'
          exact Or.inr (by simp [h'])
        | some a =>
          simp only [better] at h'
          by_cases hlt : n.start < a.start
          · rw [if_pos hlt] at h'; exact Or.inr (by simp [h'])
          · rw [if_neg hlt] at h'; exact Or.inl h'
    · exact Or.inr (List.mem_cons_of_mem x h')

/-- Every selected match decomposes the input as
prefix ++ delimiter ++ content ++ delimiter ++ rest, where the delimiter is
nonempty and consists only of marker characters. -/
theorem findBest_eq {s : List Char} {m : Cand} (h : findBest s = some m) :
    ∃ d : List Char, d ≠ [] ∧ (∀ c ∈ d, c = '*' ∨ c = '`') ∧
      s = s.take m.start ++ d ++ m.content ++ d ++ m.after := by
  rcases foldl_better_some h with h' | h'
  · exact absurd h' (by simp)
  · simp only [patterns, List.map_cons, List.map_nil, List.mem_cons,
      List.not_mem_nil, or_false] at h'
    rcases h' with h' | h' | h' | h'
    · simp only [candOf] at h'
      match hm : findMatch (['*', '*', '*']) s with
      | none => rw [hm] at h'; simp at h'
      | some (i1, c1, a1) =>
        rw [hm] at h'
        simp only [Option.map_some', Option.some.injEq] at h'
        subst h'
        exact ⟨['*', '*', '*'], by simp, by decide, findMatch_eq hm⟩
    · simp only [candOf] at h'
      match hm : findMatch (['*', '*']) s with
      | none => rw [hm] at h'; simp at h'
      | some (i1, c1, a1) =>
        rw [hm] at h'
        simp only [Option.map_some', Option.some.injEq] at h'
        subst h'
        exact ⟨['*', '*'], by simp, by decide, findMatch_eq hm⟩
    · simp only [candOf] at h'
      match hm : findMatch (['*']) s with
      | none => rw [hm] at h'; simp at h'
      | some (i1, c1, a1) =>
        rw [hm] at h'
        simp only [Option.map_some', Option.some.injEq] at h'
        subst h'
        exact ⟨['*'], by simp, by decide, findMatch_eq hm⟩
    · simp only [candOf] at h'
      match hm : findMatch (['`']) s with
      | none => rw [hm] at h'; simp at h'
      | some (i1, c1, a1) =>
        rw [hm] at h'
        simp only [Option.map_some', Option.some.injEq] at h'
        subst h'
        exact ⟨['`'], by simp, by decide, findMatch_eq hm⟩

@[simp] theorem richConcat_nil : richConcat [] = [] := rfl

@[simp] theorem richConcat_cons (p : RichPart) (ps : List RichPart) :
    richConcat (p :: ps) = p.content ++ richConcat ps := by
  simp [richConcat]

theorem richConcat_append (xs ys : List RichPart) :
    richConcat (xs ++ ys) = richConcat xs ++ richConcat ys := by
  simp [richConcat]

theorem richConcat_filter (ps : List RichPart) :
    richConcat (ps.filter (fun p => !p.content.isEmpty)) = richConcat ps := by
  induction ps with
  | nil => rfl
  | cons p ps ih =>
    by_cases hp : p.content.isEmpty
    · have hc : p.content = [] := by simpa [List.isEmpty_iff] using hp
      simp [List.filter_cons, hp, hc, ih]
    · simp [List.filter_cons, hp, ih]

theorem richConcat_parseRichText (s : List Char) :
    richConcat (parseRichText s) = richConcat (parseAux s.length s) := by
  unfold parseRichText
  by_cases hp : ((parseAux s.length s).filter (fun p => !p.content.isEmpty)).isEmpty
  · have h0 : richConcat ((parseAux s.length s).filter
        (fun p => !p.content.isEmpty)) = richConcat (parseAux s.length s) :=
      richConcat_filter _
    have h1 : ((parseAux s.length s).filter (fun p => !p.content.isEmpty)) = [] := by
      simpa [List.isEmpty_iff] using hp
    simp only [hp, if_true]
    rw [← h0, h1]
    simp [plainPart]
  · simp only [hp, if_false]
    exact richConcat_filter _

theorem parseAux_markStrips (fuel : Nat) (s : List Char) :
    MarkStrips s (richConcat (parseAux fuel s)) := by
  induction fuel generalizing s with
  | zero =>
    by_cases hs : s.isEmpty
    · have : s = [] := by simpa [List.isEmpty_iff] using hs
      simp [parseAux, hs, this]
      exact MarkStrips.nil
    · simp [parseAux, hs, plainPart, richConcat]
      exact markStrips_refl s
  | succ fuel ih =>
    match hb : findBest s with
    | none =>
      by_cases hs : s.isEmpty
      · have : s = [] := by simpa [List.isEmpty_iff] using hs
        simp [parseAux, hb, hs, this]
        exact MarkStrips.nil
      · simp [parseAux, hb, hs, plainPart, richConcat]
        exact markStrips_refl s
    | some m =>
      obtain ⟨d, _, hmark, hdec⟩ := findBest_eq hb
      have hstrip : MarkStrips (s.take m.start ++ d ++ m.content ++ d ++ m.after)
          ((s.take m.start ++ m.content) ++ richConcat (parseAux fuel m.after)) := by
        have h1 : MarkStrips (s.take m.start ++ d) (s.take m.start) := by
          simpa using markStrips_append (markStrips_refl (s.take m.start))
            (markStrips_dropAll hmark)
        have h2 : MarkStrips (s.take m.start ++ d ++ m.content)
            (s.take m.start ++ m.content) :=
          markStrips_append h1 (markStrips_refl m.content)
        have h3 : MarkStrips (s.take m.start ++ d ++ m.content ++ d)
            (s.take m.start ++ m.content) := by
          simpa using markStrips_append h2 (markStrips_dropAll hmark)
        exact markStrips_append h3 (ih m.after)
      have hout : richConcat (parseAux (fuel + 1) s) =
          (s.take m.start ++ m.content) ++ richConcat (parseAux fuel m.after) := by
        by_cases ht : (s.take m.start).isEmpty
        · have h0 : s.take m.start = [] := by simpa [List.isEmpty_iff] using ht
          simp [parseAux, hb, ht, h0]
        · simp [parseAux, hb, ht, plainPart, richConcat_append]
      rw [hout]
      have h4 := hstrip
      rw [← hdec] at h4
      exact h4

/-- Claim C3: concatenating the text of all runs returned by
`_parse_rich_text` reproduces the input with some occurrences of the
emphasis-marker characters '*' and '`' removed and every other character
preserved in its original order (no character lost, duplicated, or
reordered). -/
theorem claim_C3_tokenizer_concat (s : List Char) :
    MarkStrips s (richConcat (parseRichText s)) := by
  rw [richConcat_parseRichText]
  exact parseAux_markStrips s.length s

/-! ## Tie-break behaviour of the pattern selection (claim C4) -/

theorem foldl_better_keep (l : List (Option Cand)) (c : Cand)
    (h : ∀ x ∈ l, ∀ cx : Cand, x = some cx → c.start ≤ cx.start) :
    l.foldl better (some c) = some c := by
  induction l with
  | nil => rfl
  | cons x l ih =>
    have hx : better (some c) x = some c := by
      match x with
      | none => rfl
      | some n =>
        have := h (some n) (List.mem_cons_self _ _) n rfl
        simp [better, Nat.not_lt_of_le this]
    rw [List.foldl_cons, hx]
    exact ih (fun x hx => h x (List.mem_cons_of_mem _ hx))

theorem foldl_better_gt (l : List (Option Cand)) (c : Cand) (acc : Option Cand)
    (hacc : acc = none ∨ ∃ a : Cand, acc = some a ∧ c.start < a.start)
    (h : ∀ x ∈ l, ∀ cx : Cand, x = some cx → c.start < cx.start) :
    l.foldl better acc = none ∨
      ∃ a : Cand, l.foldl better acc = some a ∧ c.start < a.start := by
  induction l generalizing acc with
  | nil => simpa using hacc
  | cons x l ih =>
    rw [List.foldl_cons]
    refine ih (better acc x) ?_ (fun y hy => h y (List.mem_cons_of_mem _ hy))
    match x with
    | none => simpa [better] using hacc
    | some n =>
      have hn := h (some n) (List.mem_cons_self _ _) n rfl
      rcases hacc with rfl | ⟨a, rfl, ha⟩
      · exact Or.inr ⟨n, rfl, hn⟩
      · by_cases hlt : n.start < a.start
        · exact Or.inr ⟨n, by simp [better, hlt], hn⟩
        · exact Or.inr ⟨a, by simp [better, hlt], ha⟩

/-- The selection fold picks the earliest-starting candidate, and on ties
the one listed first (higher priority). -/
theorem foldl_better_priority (l₁ l₂ : List (Option Cand)) (c : Cand)
    (h₁ : ∀ x ∈ l₁, ∀ cx : Cand, x = some cx → c.start < cx.start)
    (h₂ : ∀ x ∈ l₂, ∀ cx : Cand, x = some cx → c.start ≤ cx.start) :
    (l₁ ++ some c :: l₂).foldl better none = some c := by
  rw [List.foldl_append, List.foldl_cons]
  have hacc := foldl_better_gt l₁ c none (Or.inl rfl) h₁
  have hstep : better (l₁.foldl better none) (some c) = some c := by
    rcases hacc with h0 | ⟨a, ha, hlt⟩
    · rw [h0]; rfl
    · rw [ha]; simp [better, hlt]
  rw [hstep]
  exact foldl_better_keep l₂ c h₂

/-- Claim C4: the input "***x***" tokenizes to exactly one run with
bold=true, italic=true and text "x"; moreover all of bold-italic, bold and
italic match it at the same start position 0, and in general, whenever the
pattern candidate list splits as earlier candidates (strictly later
starts), a chosen candidate, and later candidates (equal or later starts),
the selection picks the chosen one: at equal start positions the fixed
priority order bold-italic > bold > italic > inline-code decides. -/
theorem claim_C4_priority :
    parseRichText (str "***x***") = [⟨str "x", true, true, false⟩] ∧
    (findMatch (str "***") (str "***x***")).map (fun m => m.1) = some 0 ∧
    (findMatch (str "**") (str "***x***")).map (fun m => m.1) = some 0 ∧
    (findMatch (str "*") (str "***x***")).map (fun m => m.1) = some 0 ∧
    (∀ (s : List Char) (l₁ l₂ : List (Option Cand)) (c : Cand),
      patterns.map (fun p => candOf p s) = l₁ ++ some c :: l₂ →
      (∀ x ∈ l₁, ∀ cx : Cand, x = some cx → c.start < cx.start) →
      (∀ x ∈ l₂, ∀ cx : Cand, x = some cx → c.start ≤ cx.start) →
      findBest s = some c) := by
  refine ⟨by decide, by decide, by decide, by decide, ?_⟩
  intro s l₁ l₂ c hsplit h₁ h₂
  unfold findBest
  rw [hsplit]
  exact foldl_better_priority l₁ l₂ c h₁ h₂

/-- Witness for claim C4: on "***x***" all three star patterns produce a
candidate starting at position 0, and the selection returns the
bold-italic one. -/
theorem claim_C4_priority_witness :
    findBest (str "***x***") =
      some ⟨0, true, true, false, str "x", []⟩ :=
  claim_C4_priority.2.2.2.2 (str "***x***") []
    [some ⟨0, true, false, false, str "*x", str "*"⟩,
     some ⟨0, false, true, false, [], str "*x***"⟩, none]
    ⟨0, true, true, false, str "x", []⟩
    (by decide) (by decide) (by decide)

/-! ## Rendered blocks

The block dictionaries built by `_create_heading_block`,
`_create_list_blocks` and `_create_paragraph_from_text`; the constant
fields (object='block', color='default') are omitted, the discriminating
type string becomes a constructor tag. -/

inductive Block where
  | heading (depth : Nat) (rich : List RichPart)
  | bulleted (rich : List RichPart)
  | numbered (rich : List RichPart)
  | paragraph (rich : List RichPart)
deriving DecidableEq, Repr

/-- The plain text carried by a block (concatenation of its runs). -/
def blockText : Block → List Char
  | .heading _ r => richConcat r
  | .bulleted r => richConcat r
  | .numbered r => richConcat r
  | .paragraph r => richConcat r

/-! ## Paragraph chunker: the splitting loop of `_create_paragraph_from_text` -/

/-- A sentence-ending character of the first backward search: ideographic
full stop, full-width full stop, or newline. -/
def isSentenceEnd (c : Char) : Bool := c = '。' ∨ c = '．' ∨ c = '\n'

/-- Backward scan of Python's `for i in range(start, stop, -1)` over
`current_text[i]`: the first (largest) index `i` with `stop < i ≤ start`
whose character satisfies `p`.  In the source the index is always in
bounds (the loop runs only while `L < len(text)` and `i ≤ L`); the
default character `'\x00'` satisfies none of the predicates used. -/
def findBack (t : List Char) (p : Char → Bool) (stop : Nat) : Nat → Option Nat
  | 0 => none
  | i + 1 =>
    if i + 1 ≤ stop then none
    else if p (t.getD (i + 1) '\x00') then some (i + 1)
    else findBack t p stop i

/-- Third stage of the split-point computation: on the sentinel value `L`
search backward for a plain space within the last 50 characters. -/
def splitPointSpace (t : List Char) (L sp : Nat) : Nat :=
  if sp = L then
    match findBack t (fun c => c = ' ') (L - 50) L with
    | some i => i + 1
    | none => sp
  else sp

/-- Second stage: on the sentinel value `L` search backward for a newline
within the last 100 characters, then run the space stage. -/
def splitPointNl (t : List Char) (L sp : Nat) : Nat :=
  splitPointSpace t L
    (if sp = L then
      match findBack t (fun c => c = '\n') (L - 100) L with
      | some i => i + 1
      | none => sp
    else sp)

/-- The split-point computation of `_create_paragraph_from_text`:
sentence-end within the last 200 characters, then newline within the last
100, then space within the last 50, then a hard cut at `L`.  Each later
search runs whenever the split point so far equals the sentinel `L`
(the final `split_point = max_length` assignment in the source is a
no-op and is not modelled). -/
def splitPoint (t : List Char) (L : Nat) : Nat :=
  splitPointNl t L
    (match findBack t isSentenceEnd (L - 200) L with
    | some i => i + 1
    | none => L)

/-- The `while len(current_text) > max_length` loop, fuelled: it emits the
stripped chunk before each split point when non-empty, continues on the
stripped remainder, and finally emits the remainder once it fits.  Each
iteration shortens the text (for `0 < L`), so fuel = length suffices. -/
def splitLongAux (L : Nat) : Nat → List Char → List (List Char)
  | 0, t => if t.length ≤ L then (if t.isEmpty then [] else [t]) else []
  | fuel + 1, t =>
    if t.length ≤ L then (if t.isEmpty then [] else [t])
    else
      (if (pyStrip (t.take (splitPoint t L))).isEmpty then []
       else [pyStrip (t.take (splitPoint t L))]) ++
        splitLongAux L fuel (pyStrip (t.drop (splitPoint t L)))

/-- `_create_paragraph_from_text`: parse the text; if the total rendered
length fits within `max_length` return a single paragraph block, otherwise
split the plain text and re-parse each chunk into its own paragraph
block. -/
def createParagraphFromText (t : List Char) (L : Nat) : List Block :=
  if totalRichLen (parseRichText t) ≤ L then [Block.paragraph (parseRichText t)]
  else (splitLongAux L t.length t).map (fun c => Block.paragraph (parseRichText c))

/-! ## Facts about stripping -/

theorem pyRstrip_length_le (l : List Char) : (pyRstrip l).length ≤ l.length := by
  unfold pyRstrip
  calc ((l.reverse.dropWhile isPySpace)).reverse.length
      = (l.reverse.dropWhile isPySpace).length := by simp
    _ ≤ l.reverse.length := (List.dropWhile_suffix _).length_le
    _ = l.length := by simp

theorem pyStrip_length_le (l : List Char) : (pyStrip l).length ≤ l.length := by
  unfold pyStrip
  calc (pyRstrip (l.dropWhile isPySpace)).length
      ≤ (l.dropWhile isPySpace).length := pyRstrip_length_le _
    _ ≤ l.length := (List.dropWhile_suffix _).length_le

theorem pyRstrip_decomp (l : List Char) :
    ∃ b, l = pyRstrip l ++ b ∧ ∀ c ∈ b, isPySpace c := by
  refine ⟨(l.reverse.takeWhile isPySpace).reverse, ?_, ?_⟩
  · have h := List.takeWhile_append_dropWhile (p := isPySpace) (l := l.reverse)
    have h2 := congrArg List.reverse h
    simp only [List.reverse_append, List.reverse_reverse] at h2
    exact h2.symm
  · intro c hc
    rw [List.mem_reverse] at hc
    exact List.mem_takeWhile_imp hc

theorem pyStrip_decomp (l : List Char) :
    ∃ a b, l = a ++ pyStrip l ++ b ∧ (∀ c ∈ a, isPySpace c) ∧ ∀ c ∈ b, isPySpace c := by
  obtain ⟨b, hb, hbs⟩ := pyRstrip_decomp (l.dropWhile isPySpace)
  refine ⟨l.takeWhile isPySpace, b, ?_, ?_, hbs⟩
  · conv_lhs => rw [← List.takeWhile_append_dropWhile (p := isPySpace) (l := l)]
    rw [hb]
    simp [pyStrip]
  · intro c hc; exact List.mem_takeWhile_imp hc

theorem pyStrip_allSpace {l : List Char} (h : ∀ c ∈ l, isPySpace c) :
    pyStrip l = [] := by
  have h1 : l.dropWhile isPySpace = [] := by
    rw [List.dropWhile_eq_nil_iff]
    exact h
  simp [pyStrip, h1, pyRstrip]

theorem dropWhile_of_prefix_eq_self {p : Char → Bool} {u v : List Char}
    (hpre : ∃ w, u = v ++ w) (hu : u.dropWhile p = u) : v.dropWhile p = v := by
  obtain ⟨w, rfl⟩ := hpre
  match v with
  | [] => rfl
  | c :: v' =>
    rw [List.cons_append, List.dropWhile_cons] at hu
    by_cases hp : p c
    · exfalso
      rw [if_pos hp] at hu
      have hl := congrArg List.length hu
      have hle := (List.dropWhile_suffix (l := v' ++ w) p).length_le
      rw [List.length_cons] at hl
      omega
    · rw [List.dropWhile_cons, if_neg hp]

theorem pyRstrip_dropWhile_comm (l : List Char)
    (h : l.dropWhile isPySpace = l) :
    (pyRstrip l).dropWhile isPySpace = pyRstrip l := by
  obtain ⟨b, hb, _⟩ := pyRstrip_decomp l
  exact dropWhile_of_prefix_eq_self ⟨b, hb⟩ h

theorem pyStrip_idem (l : List Char) : pyStrip (pyStrip l) = pyStrip l := by
  have h1 : (l.dropWhile isPySpace).dropWhile isPySpace = l.dropWhile isPySpace :=
    List.dropWhile_idempotent _ _
  have h2 : (pyStrip l).dropWhile isPySpace = pyStrip l :=
    pyRstrip_dropWhile_comm _ h1
  unfold pyStrip
  rw [show pyStrip l = pyRstrip (l.dropWhile isPySpace) from rfl] at h2
  rw [h2]
  have h3 : pyRstrip (pyRstrip (l.dropWhile isPySpace)) =
      pyRstrip (l.dropWhile isPySpace) := by
    unfold pyRstrip
    rw [List.reverse_reverse, List.dropWhile_idempotent]
  exact h3

/-! ## Facts about the split point -/

theorem findBack_le {t : List Char} {p : Char → Bool} {stop i j : Nat}
    (h : findBack t p stop i = some j) : j ≤ i := by
  induction i with
  | zero => simp [findBack] at h
  | succ i ih =>
    simp only [findBack] at h
    split at h
    · simp at h
    · split at h
      · simp only [Option.some.injEq] at h; omega
      · exact Nat.le_succ_of_le (ih h)

theorem splitPointSpace_le {t : List Char} {L sp : Nat} (h : sp ≤ L + 1) :
    splitPointSpace t L sp ≤ L + 1 := by
  unfold splitPointSpace
  split
  · cases hf : findBack t (fun c => c = ' ') (L - 50) L with
    | some i => show i + 1 ≤ L + 1; have := findBack_le hf; omega
    | none => exact h
  · exact h

theorem splitPointNl_le {t : List Char} {L sp : Nat} (h : sp ≤ L + 1) :
    splitPointNl t L sp ≤ L + 1 := by
  unfold splitPointNl
  apply splitPointSpace_le
  split
  · cases hf : findBack t (fun c => c = '\n') (L - 100) L with
    | some i => show i + 1 ≤ L + 1; have := findBack_le hf; omega
    | none => exact h
  · exact h

theorem splitPoint_le (t : List Char) (L : Nat) : splitPoint t L ≤ L + 1 := by
  unfold splitPoint
  apply splitPointNl_le
  cases hf : findBack t isSentenceEnd (L - 200) L with
  | some i => show i + 1 ≤ L + 1; have := findBack_le hf; omega
  | none => show L ≤ L + 1; omega

theorem splitPointSpace_pos {t : List Char} {L sp : Nat} (_hL : 0 < L)
    (h : 1 ≤ sp) : 1 ≤ splitPointSpace t L sp := by
  unfold splitPointSpace
  split
  · cases hf : findBack t (fun c => c = ' ') (L - 50) L with
    | some i => show 1 ≤ i + 1; omega
    | none => exact h
  · exact h

theorem splitPointNl_pos {t : List Char} {L sp : Nat} (hL : 0 < L)
    (h : 1 ≤ sp) : 1 ≤ splitPointNl t L sp := by
  unfold splitPointNl
  apply splitPointSpace_pos hL
  split
  · cases hf : findBack t (fun c => c = '\n') (L - 100) L with
    | some i => show 1 ≤ i + 1; omega
    | none => exact h
  · exact h

theorem splitPoint_pos (t : List Char) (L : Nat) (hL : 0 < L) :
    1 ≤ splitPoint t L := by
  unfold splitPoint
  apply splitPointNl_pos hL
  cases hf : findBack t isSentenceEnd (L - 200) L with
  | some i => show 1 ≤ i + 1; omega
  | none => show 1 ≤ L; omega

/-! ## Chunk reconstruction (claim C6) -/

theorem splitLongAux_decomp (L : Nat) (hL : 0 < L) :
    ∀ fuel t, t.length ≤ fuel → (pyStrip t = t ∨ L < t.length) →
      ∃ pieces : List (List Char), pieces.flatten = t ∧
        splitLongAux L fuel t =
          (pieces.map pyStrip).filter (fun c => !c.isEmpty) := by
  intro fuel
  induction fuel with
  | zero =>
    intro t hlen _
    have ht : t = [] := List.eq_nil_of_length_eq_zero (Nat.le_zero.mp hlen)
    subst ht
    exact ⟨[], rfl, by simp [splitLongAux]⟩
  | succ fuel ih =>
    intro t hlen hdisj
    by_cases hfit : t.length ≤ L
    · have hstrip : pyStrip t = t := by
        rcases hdisj with h | h
        · exact h
        · omega
      refine ⟨[t], by simp, ?_⟩
      simp only [splitLongAux, if_pos hfit, List.map_cons, List.map_nil, hstrip]
      by_cases hte : t.isEmpty
      · have ht : t = [] := by simpa [List.isEmpty_iff] using hte
        simp [ht]
      · simp [List.filter_cons, hte]
    · obtain ⟨a, b, hab, has, hbs⟩ := pyStrip_decomp (t.drop (splitPoint t L))
      have hsp1 : 1 ≤ splitPoint t L := splitPoint_pos t L hL
      have hrlen : (pyStrip (t.drop (splitPoint t L))).length ≤ fuel := by
        have h1 : (pyStrip (t.drop (splitPoint t L))).length ≤
            (t.drop (splitPoint t L)).length := pyStrip_length_le _
        have h2 : (t.drop (splitPoint t L)).length = t.length - splitPoint t L := by
          simp
        omega
      obtain ⟨ps, hps, hres⟩ :=
        ih (pyStrip (t.drop (splitPoint t L))) hrlen (Or.inl (pyStrip_idem _))
      refine ⟨[t.take (splitPoint t L), a] ++ ps ++ [b], ?_, ?_⟩
      · have hsplit : t = t.take (splitPoint t L) ++ t.drop (splitPoint t L) :=
          (List.take_append_drop _ t).symm
        simp only [List.flatten_append, List.flatten_cons, List.flatten_nil,
          List.append_nil]
        rw [hps]
        conv_rhs => rw [hsplit, hab]
        simp
      · simp only [splitLongAux, if_neg hfit]
        rw [List.map_append, List.map_append, List.filter_append, List.filter_append]
        have hfa : pyStrip a = [] := pyStrip_allSpace has
        have hfb : pyStrip b = [] := pyStrip_allSpace hbs
        simp only [List.map_cons, List.map_nil, hfa, hfb, List.filter_cons,
          List.filter_nil]
        rw [← hres]
        by_cases hc : (pyStrip (t.take (splitPoint t L))).isEmpty
        · simp [hc]
        · simp [hc]

theorem totalRichLen_eq (ps : List RichPart) :
    totalRichLen ps = (richConcat ps).length := by
  induction ps with
  | nil => rfl
  | cons p ps ih =>
    simp only [totalRichLen, List.map_cons, List.sum_cons, richConcat_cons,
      List.length_append]
    rw [← ih]
    rfl

/-- Claim C5 (amended): for every text whose length is at most the chunk
limit `L`, `_create_paragraph_from_text` returns exactly one paragraph
block, whose text is the input itself with emphasis markers removed — the
input is NOT trimmed on this path (the claim's "trimmed input" is wrong;
see the counterexample). -/
theorem claim_C5_short_text (t : List Char) (L : Nat) (h : t.length ≤ L) :
    createParagraphFromText t L = [Block.paragraph (parseRichText t)] ∧
    MarkStrips t (blockText (Block.paragraph (parseRichText t))) := by
  have hm : MarkStrips t (richConcat (parseRichText t)) := by
    rw [richConcat_parseRichText]
    exact parseAux_markStrips t.length t
  have hlen : totalRichLen (parseRichText t) ≤ L := by
    rw [totalRichLen_eq]
    exact le_trans (markStrips_length hm) h
  constructor
  · unfold createParagraphFromText
    rw [if_pos hlen]
  · simpa [blockText] using hm

/-- Witness for claim C5 (amended) at the concrete input "ab". -/
theorem claim_C5_short_text_witness :
    createParagraphFromText (str "ab") 1800 =
      [Block.paragraph (parseRichText (str "ab"))] ∧
    MarkStrips (str "ab")
      (blockText (Block.paragraph (parseRichText (str "ab")))) :=
  claim_C5_short_text (str "ab") 1800 (by decide)

/-- Counterexample to claim C5 as stated: the input " a" has length at
most L = 1800, and the single returned chunk is " a" itself — not the
trimmed input "a". -/
theorem claim_C5_counterexample :
    (str " a").length ≤ 1800 ∧
    (createParagraphFromText (str " a") 1800).map blockText = [str " a"] ∧
    pyStrip (str " a") = str "a" ∧
    (createParagraphFromText (str " a") 1800).map blockText ≠
      [pyStrip (str " a")] := by
  decide

/-- Claim C6 (amended): for text longer than `L` the chunker's output,
each chunk trimmed, concatenates back to the original text with only
whitespace removed at the split points (no character lost, duplicated or
reordered); the split point uses the priority sentence-end > newline >
space > hard cut, EXCEPT that a boundary whose resulting split position
equals the sentinel value `L` (a boundary character found at index L-1)
is treated as not found, so a lower-priority search may override it. -/
theorem claim_C6_chunk_reconstruction (t : List Char) (L : Nat)
    (hL : 0 < L) (_hlen : L < t.length) :
    (∃ pieces : List (List Char), pieces.flatten = t ∧
       splitLongAux L t.length t =
         (pieces.map pyStrip).filter (fun c => !c.isEmpty)) ∧
    (∀ u i, findBack u isSentenceEnd (L - 200) L = some i → i + 1 ≠ L →
       splitPoint u L = i + 1) ∧
    (∀ u i, findBack u isSentenceEnd (L - 200) L = none →
       findBack u (fun c => c = '\n') (L - 100) L = some i → i + 1 ≠ L →
       splitPoint u L = i + 1) ∧
    (∀ u i, findBack u isSentenceEnd (L - 200) L = none →
       findBack u (fun c => c = '\n') (L - 100) L = none →
       findBack u (fun c => c = ' ') (L - 50) L = some i →
       splitPoint u L = i + 1) ∧
    (∀ u, findBack u isSentenceEnd (L - 200) L = none →
       findBack u (fun c => c = '\n') (L - 100) L = none →
       findBack u (fun c => c = ' ') (L - 50) L = none →
       splitPoint u L = L) := by
  refine ⟨?_, ?_, ?_, ?_, ?_⟩
  · exact splitLongAux_decomp L hL t.length t (le_refl _) (Or.inr _hlen)
  · intro u i h1 hne
    unfold splitPoint splitPointNl splitPointSpace
    rw [h1]
    simp only [if_neg hne]
  · intro u i h1 h2 hne
    unfold splitPoint splitPointNl splitPointSpace
    rw [h1, h2]
    simp [hne]
  · intro u i h1 h2 h3
    unfold splitPoint splitPointNl splitPointSpace
    rw [h1, h2, h3]
    simp
  · intro u h1 h2 h3
    unfold splitPoint splitPointNl splitPointSpace
    rw [h1, h2, h3]
    simp

/-- Witness for claim C6 (amended): concrete instantiation of the
hard-cut clause. -/
theorem claim_C6_chunk_reconstruction_witness :
    splitPoint (str "abcdef") 5 = 5 :=
  (claim_C6_chunk_reconstruction (str "abcdef") 5 (by decide)
    (by decide)).2.2.2.2 (str "abcdef") (by decide) (by decide) (by decide)

/-- Counterexample to claim C6 as stated: with L = 5 and input
"ab c。xyz", the sentence-end '。' sits at index 4 = L-1 inside the search
window (the backward sentence search finds it), yet its split position
L equals the sentinel, so the chunker instead splits at the space
(split point 3) — space beat sentence-end, contradicting the unqualified
priority sentence-end > space. -/
theorem claim_C6_counterexample :
    isSentenceEnd ((str "ab c。xyz").getD 4 '\x00') = true ∧
    findBack (str "ab c。xyz") isSentenceEnd (5 - 200) 5 = some 4 ∧
    (str "ab c。xyz").getD 2 '\x00' = ' ' ∧
    splitPoint (str "ab c。xyz") 5 = 3 ∧
    splitLongAux 5 (str "ab c。xyz").length (str "ab c。xyz") =
      [str "ab", str "c。xyz"] := by
  decide

/-- Every chunk emitted by the splitting loop has length at most L+1. -/
theorem splitLongAux_chunk_le (L : Nat) :
    ∀ fuel t, ∀ c ∈ splitLongAux L fuel t, c.length ≤ L + 1 := by
  intro fuel
  induction fuel with
  | zero =>
    intro t c hc
    simp only [splitLongAux] at hc
    split at hc
    · rename_i hfit
      split at hc
      · simp at hc
      · simp only [List.mem_singleton] at hc
        subst hc
        omega
    · simp at hc
  | succ fuel ih =>
    intro t c hc
    simp only [splitLongAux] at hc
    split at hc
    · rename_i hfit
      split at hc
      · simp at hc
      · simp only [List.mem_singleton] at hc
        subst hc
        omega
    · rw [List.mem_append] at hc
      rcases hc with hc | hc
      · split at hc
        · simp at hc
        · simp only [List.mem_singleton] at hc
          subst hc
          calc (pyStrip (t.take (splitPoint t L))).length
              ≤ (t.take (splitPoint t L)).length := pyStrip_length_le _
            _ ≤ splitPoint t L := by rw [List.length_take]; omega
            _ ≤ L + 1 := splitPoint_le t L
      · exact ih _ c hc

/-- Claim C10: every chunk emitted by the oversized-path splitting loop
has length at most L+1 before trimming (the backward boundary searches
start at index L inclusive, so a boundary at index L yields split point
L+1); in particular, for the default L = 1800 every chunk has at most
1801 characters, strictly below the external 2000-character limit. -/
theorem claim_C10_chunk_length (t : List Char) (L : Nat) (c : List Char)
    (hc : c ∈ splitLongAux L t.length t) :
    c.length ≤ L + 1 ∧ (L = 1800 → c.length ≤ 1801 ∧ c.length < 2000) := by
  have h := splitLongAux_chunk_le L t.length t c hc
  exact ⟨h, fun hL => by omega⟩

/-- Witness for claim C10: a concrete chunk of a concrete oversized
split. -/
theorem claim_C10_chunk_length_witness :
    (str "aaaaa").length ≤ 5 + 1 ∧
    (5 = 1800 → (str "aaaaa").length ≤ 1801 ∧ (str "aaaaa").length < 2000) :=
  claim_C10_chunk_length (str "aaaaaaa") 5 (str "aaaaa") (by decide)

/-! ## Block classifier: `_create_blocks_from_markdown`

The line-scanning state machine.  Lines are obtained by splitting on
newline (Python `split('\n')`), each line is right-stripped, and the three
line regexes are modelled for the newline-free right-stripped lines the
function actually produces (for such lines the greedy/backtracking
behaviour of the regexes coincides with the straightforward reading
below). -/

/-- Python `text.split('\n')` on character lists (the empty text yields
one empty line). -/
def splitLinesCh : List Char → List (List Char)
  | [] => [[]]
  | c :: rest =>
    if c = '\n' then [] :: splitLinesCh rest
    else
      match splitLinesCh rest with
      | [] => [[c]]
      | l :: ls => (c :: l) :: ls

/-- Heading line: `^(#{1,6})\s+(.+)$` — a maximal run of one to six
leading hashes, at least one whitespace character, then nonempty text
(the capture) reaching the end of the line. -/
def headingMatch (line : List Char) : Option (Nat × List Char) :=
  if 1 ≤ (line.takeWhile (fun c => c = '#')).length ∧
      (line.takeWhile (fun c => c = '#')).length ≤ 6 ∧
      ¬((line.drop (line.takeWhile (fun c => c = '#')).length).takeWhile
        isPySpace).isEmpty ∧
      ¬((line.drop (line.takeWhile (fun c => c = '#')).length).dropWhile
        isPySpace).isEmpty
  then
    some ((line.takeWhile (fun c => c = '#')).length,
      (line.drop (line.takeWhile (fun c => c = '#')).length).dropWhile isPySpace)
  else none

/-- Bulleted line: `^[\s]*[-*+]\s+(.+)$`. -/
def bulletMatch (line : List Char) : Option (List Char) :=
  match line.dropWhile isPySpace with
  | [] => none
  | c :: cs =>
    if c = '-' ∨ c = '*' ∨ c = '+' then
      match cs with
      | [] => none
      | d :: _ =>
        if isPySpace d then
          match cs.dropWhile isPySpace with
          | [] => none
          | t :: ts => some (t :: ts)
        else none
    else none

/-- Numbered line: `^[\s]*\d+\.\s+(.+)$`. -/
def numberedMatch (line : List Char) : Option (List Char) :=
  if ((line.dropWhile isPySpace).takeWhile Char.isDigit).isEmpty then none
  else
    match (line.dropWhile isPySpace).drop
        ((line.dropWhile isPySpace).takeWhile Char.isDigit).length with
    | [] => none
    | c :: cs =>
      if c = '.' then
        match cs with
        | [] => none
        | d :: _ =>
          if isPySpace d then
            match cs.dropWhile isPySpace with
            | [] => none
            | t :: ts => some (t :: ts)
          else none
      else none

/-- The active list kind of the classifier. -/
inductive ListKind where
  | bulleted
  | numbered
deriving DecidableEq, Repr

/-- The classifier's accumulator state: emitted blocks, pending paragraph
lines, pending list items and the active list kind. -/
structure CState where
  blocks : List Block
  para : List (List Char)
  items : List (List Char)
  listType : Option ListKind
deriving DecidableEq, Repr

/-- Python `'\n'.join(lines)`. -/
def joinLines (ls : List (List Char)) : List Char :=
  (ls.intersperse ['\n']).flatten

/-- Flush the pending paragraph: emitted only when present and its joined
text is not whitespace-only (the paragraph goes through
`_create_paragraph_from_text` with the default limit 1800). -/
def flushPara (st : CState) : CState :=
  if st.para.isEmpty then st
  else if (pyStrip (joinLines st.para)).isEmpty then { st with para := [] }
  else
    { st with
      blocks := st.blocks ++ createParagraphFromText (joinLines st.para) 1800,
      para := [] }

/-- `_create_list_blocks`: one list-item block per pending item, bulleted
when the recorded kind is bulleted and numbered otherwise. -/
def createListBlocks (items : List (List Char)) (lt : Option ListKind) :
    List Block :=
  items.map (fun it =>
    match lt with
    | some ListKind.bulleted => Block.bulleted (parseRichText it)
    | _ => Block.numbered (parseRichText it))

/-- Flush the pending list items (no-op when there are none). -/
def flushList (st : CState) : CState :=
  if st.items.isEmpty then st
  else
    { st with
      blocks := st.blocks ++ createListBlocks st.items st.listType,
      items := [], listType := none }

/-- One iteration of the line loop of `_create_blocks_from_markdown`:
right-strip the line, then blank / heading / bulleted / numbered /
paragraph, in the source's priority order. -/
def classifyStep (st : CState) (rawLine : List Char) : CState :=
  let line := pyRstrip rawLine
  if (pyStrip line).isEmpty then flushList (flushPara st)
  else
    match headingMatch line with
    | some (k, txt) =>
      let st1 := flushList (flushPara st)
      { st1 with
        blocks := st1.blocks ++ [Block.heading (min k 3) (parseRichText txt)] }
    | none =>
      match bulletMatch line with
      | some txt =>
        let st1 := flushPara st
        let st2 :=
          if ¬st1.items.isEmpty ∧ st1.listType ≠ some ListKind.bulleted then
            flushList st1
          else st1
        { st2 with
          items := st2.items ++ [txt], listType := some ListKind.bulleted }
      | none =>
        match numberedMatch line with
        | some txt =>
          let st1 := flushPara st
          let st2 :=
            if ¬st1.items.isEmpty ∧ st1.listType ≠ some ListKind.numbered then
              flushList st1
            else st1
          { st2 with
            items := st2.items ++ [txt], listType := some ListKind.numbered }
        | none =>
          let st1 := flushList st
          { st1 with para := st1.para ++ [line] }

/-- The initial accumulator state. -/
def initState : CState := ⟨[], [], [], none⟩

/-- `_create_blocks_from_markdown`: scan all lines, then flush the
remaining paragraph and list. -/
def createBlocksFromMarkdown (text : List Char) : List Block :=
  (flushList (flushPara ((splitLinesCh text).foldl classifyStep initState))).blocks

/-- Claim C7: classifying "# A\n\ntext\n\n- i1\n- i2\n\n1. n1" produces,
in order: one level-1 heading "A", one paragraph "text", two bulleted
items "i1" and "i2", and one numbered item "n1" — and nothing else. -/
theorem claim_C7_classifier_example :
    createBlocksFromMarkdown (str "# A\n\ntext\n\n- i1\n- i2\n\n1. n1") =
      [Block.heading 1 [plainPart (str "A")],
       Block.paragraph [plainPart (str "text")],
       Block.bulleted [plainPart (str "i1")],
       Block.bulleted [plainPart (str "i2")],
       Block.numbered [plainPart (str "n1")]] := by
  decide

/-! ## Heading depth capping (claim C8) -/

theorem splitLinesCh_no_nl {l : List Char} (h : '\n' ∉ l) :
    splitLinesCh l = [l] := by
  induction l with
  | nil => rfl
  | cons c rest ih =>
    have hc : ¬c = '\n' := fun e => h (by simp [e])
    have hr : '\n' ∉ rest := fun e => h (List.mem_cons_of_mem _ e)
    simp only [splitLinesCh, if_neg hc, ih hr]

theorem pyRstrip_eq_self {l : List Char}
    (h : ∀ c, l.getLast? = some c → isPySpace c = false) : pyRstrip l = l := by
  cases hl : l.reverse with
  | nil =>
    have h0 : l = [] := by simpa using congrArg List.reverse hl
    simp [h0, pyRstrip]
  | cons x xs =>
    have hx : l.getLast? = some x := by
      rw [← List.head?_reverse, hl]
      rfl
    unfold pyRstrip
    rw [hl, List.dropWhile_cons, if_neg (by simp [h x hx])]
    rw [← hl, List.reverse_reverse]

theorem mem_pyRstrip {l : List Char} {c : Char} (hc : c ∈ pyRstrip l) :
    c ∈ l := by
  obtain ⟨b, hb, _⟩ := pyRstrip_decomp l
  rw [hb]
  exact List.mem_append_left _ hc

theorem pyStrip_ne_nil {l : List Char} {c : Char} (hc : c ∈ l)
    (hns : isPySpace c = false) : (pyStrip l).isEmpty = false := by
  obtain ⟨a, b, hab, has, hbs⟩ := pyStrip_decomp l
  cases he : (pyStrip l).isEmpty with
  | false => rfl
  | true =>
    exfalso
    have h0 : pyStrip l = [] := by simpa [List.isEmpty_iff] using he
    rw [hab, h0] at hc
    simp only [List.append_nil, List.mem_append] at hc
    rcases hc with hc | hc
    · rw [has c hc] at hns; exact absurd hns (by simp)
    · rw [hbs c hc] at hns; exact absurd hns (by simp)

theorem takeWhile_replicate_cons (n : Nat) (c x : Char) (ts : List Char)
    (p : Char → Bool) (hc : p c = true) (hx : p x = false) :
    (List.replicate n c ++ x :: ts).takeWhile p = List.replicate n c := by
  induction n with
  | zero => simp [List.takeWhile_cons, hx]
  | succ n ih => simp [List.replicate_succ, List.takeWhile_cons, hc, ih]

/-- Claim C8: for every heading line with level n between 1 and 6, the
rendered heading block has depth min(n, 3); in particular a level-6
heading renders as a depth-3 heading block.  The side conditions say the
heading text is a single non-blank line not beginning or ending in
whitespace (as the source's line splitting and right-stripping
guarantee). -/
theorem claim_C8_heading_depth (n : Nat) (txt : List Char)
    (h1 : 1 ≤ n) (h2 : n ≤ 6) (h3 : txt ≠ [])
    (h4 : ∀ c, txt.head? = some c → isPySpace c = false)
    (h5 : ∀ c, txt.getLast? = some c → isPySpace c = false)
    (h6 : '\n' ∉ txt) :
    createBlocksFromMarkdown (List.replicate n '#' ++ ' ' :: txt) =
      [Block.heading (min n 3) (parseRichText txt)] := by
  obtain ⟨t0, ts, rfl⟩ : ∃ t0 ts, txt = t0 :: ts := by
    cases txt with
    | nil => exact absurd rfl h3
    | cons t0 ts => exact ⟨t0, ts, rfl⟩
  have hline_nl : '\n' ∉ List.replicate n '#' ++ ' ' :: t0 :: ts := by
    intro hmem
    rcases List.mem_append.mp hmem with hmem | hmem
    · have := List.eq_of_mem_replicate hmem
      simp at this
    · rcases List.mem_cons.mp hmem with hmem | hmem
      · simp at hmem
      · exact h6 hmem
  have hlast : ∀ c, (List.replicate n '#' ++ ' ' :: t0 :: ts).getLast? = some c →
      isPySpace c = false := by
    intro c hc
    have hg : (List.replicate n '#' ++ ' ' :: t0 :: ts).getLast? =
        (t0 :: ts).getLast? := by
      rw [List.getLast?_append_of_ne_nil]
      · rw [List.getLast?_cons_cons]
      · simp
    rw [hg] at hc
    exact h5 c hc
  have hrstrip : pyRstrip (List.replicate n '#' ++ ' ' :: t0 :: ts) =
      List.replicate n '#' ++ ' ' :: t0 :: ts := pyRstrip_eq_self hlast
  have htake : (List.replicate n '#' ++ ' ' :: t0 :: ts).takeWhile
      (fun c => c = '#') = List.replicate n '#' :=
    takeWhile_replicate_cons n '#' ' ' (t0 :: ts) _ (by decide) (by decide)
  have hdrop : (List.replicate n '#' ++ ' ' :: t0 :: ts).drop n = ' ' :: t0 :: ts := by
    have := List.drop_left (List.replicate n '#') (' ' :: t0 :: ts)
    rwa [List.length_replicate] at this
  have ht0 : isPySpace t0 = false := h4 t0 rfl
  have hdw : (' ' :: t0 :: ts).dropWhile isPySpace = t0 :: ts := by
    rw [List.dropWhile_cons, if_pos (by decide), List.dropWhile_cons, if_neg (by simp [ht0])]
  have hmatch : headingMatch (List.replicate n '#' ++ ' ' :: t0 :: ts) =
      some (n, t0 :: ts) := by
    unfold headingMatch
    rw [htake, List.length_replicate, hdrop, hdw]
    rw [if_pos ⟨h1, h2,
      by simp [List.takeWhile_cons, show isPySpace ' ' = true from by decide],
      by simp⟩]
  have hne : (pyStrip (List.replicate n '#' ++ ' ' :: t0 :: ts)).isEmpty
      = false :=
    pyStrip_ne_nil (l := List.replicate n '#' ++ ' ' :: t0 :: ts)
      (c := '#') (by
        apply List.mem_append_left
        exact List.mem_replicate.mpr ⟨by omega, rfl⟩) (by decide)
  unfold createBlocksFromMarkdown
  rw [splitLinesCh_no_nl hline_nl, List.foldl_cons, List.foldl_nil]
  unfold classifyStep
  simp only [hrstrip, hne, Bool.false_eq_true, if_false, hmatch]
  rfl

/-- Witness for claim C8: a level-6 heading "###### x" renders with
depth 3. -/
theorem claim_C8_heading_depth_witness :
    createBlocksFromMarkdown (List.replicate 6 '#' ++ ' ' :: ['x']) =
      [Block.heading (min 6 3) (parseRichText ['x'])] :=
  claim_C8_heading_depth 6 ['x'] (by decide) (by decide) (by decide)
    (by decide) (by decide) (by decide)

/-! ## Totality and termination of the pure pipeline (claim C9)

The Python loops in `_parse_rich_text` and `_create_paragraph_from_text`
are modelled with fuel; their termination is captured by the fact that the
result is independent of the fuel once the fuel reaches the input length
(each iteration strictly shortens the remaining text; for the chunker the
loop indeed would not terminate for `max_length = 0`, but every call site
uses the default 1800). -/

theorem findBest_nil : findBest [] = none := by decide

theorem parseAux_nil (fuel : Nat) : parseAux fuel [] = [] := by
  cases fuel with
  | zero => rfl
  | succ n => simp [parseAux, findBest_nil]

theorem findBest_after_lt {s : List Char} {m : Cand} (h : findBest s = some m) :
    m.after.length < s.length := by
  obtain ⟨d, hd, _, hdec⟩ := findBest_eq h
  have hlen := congrArg List.length hdec
  simp only [List.length_append] at hlen
  have hdl : 1 ≤ d.length := List.length_pos.mpr hd
  omega

theorem parseAux_stable : ∀ fuel₁ fuel₂ s, s.length ≤ fuel₁ → s.length ≤ fuel₂ →
    parseAux fuel₁ s = parseAux fuel₂ s := by
  intro fuel₁
  induction fuel₁ with
  | zero =>
    intro fuel₂ s h1 _
    have hs : s = [] := List.eq_nil_of_length_eq_zero (Nat.le_zero.mp h1)
    subst hs
    rw [parseAux_nil, parseAux_nil]
  | succ f ih =>
    intro fuel₂ s h1 h2
    cases fuel₂ with
    | zero =>
      have hs : s = [] := List.eq_nil_of_length_eq_zero (Nat.le_zero.mp h2)
      subst hs
      rw [parseAux_nil, parseAux_nil]
    | succ g =>
      cases hb : findBest s with
      | none => simp [parseAux, hb]
      | some m =>
        have hlt := findBest_after_lt hb
        have e := ih g m.after (by omega) (by omega)
        simp [parseAux, hb, e]

theorem splitLongAux_stable (L : Nat) (hL : 0 < L) :
    ∀ fuel₁ fuel₂ t, t.length ≤ fuel₁ → t.length ≤ fuel₂ →
      splitLongAux L fuel₁ t = splitLongAux L fuel₂ t := by
  intro fuel₁
  induction fuel₁ with
  | zero =>
    intro fuel₂ t h1 _
    have ht : t = [] := List.eq_nil_of_length_eq_zero (Nat.le_zero.mp h1)
    subst ht
    cases fuel₂ <;> simp [splitLongAux]
  | succ f ih =>
    intro fuel₂ t h1 h2
    by_cases hfit : t.length ≤ L
    · cases fuel₂ <;> simp [splitLongAux, hfit]
    · cases fuel₂ with
      | zero => omega
      | succ g =>
        have hsp := splitPoint_pos t L hL
        have hps := pyStrip_length_le (t.drop (splitPoint t L))
        have hdl : (t.drop (splitPoint t L)).length = t.length - splitPoint t L := by
          simp
        have e := ih g (pyStrip (t.drop (splitPoint t L))) (by omega) (by omega)
        simp [splitLongAux, hfit, e]

theorem parseRichText_len (s : List Char) : 1 ≤ (parseRichText s).length := by
  unfold parseRichText
  cases hp : ((parseAux s.length s).filter (fun p => !p.content.isEmpty)).isEmpty
  · simp only [hp, Bool.false_eq_true, if_false]
    cases hq : (parseAux s.length s).filter (fun p => !p.content.isEmpty) with
    | nil => rw [hq] at hp; simp at hp
    | cons x xs => simp
  · simp [hp]

theorem splitLinesCh_chars {s l : List Char} (hl : l ∈ splitLinesCh s)
    {c : Char} (hc : c ∈ l) : c ∈ s := by
  induction s generalizing l with
  | nil =>
    simp only [splitLinesCh, List.mem_singleton] at hl
    subst hl
    simp at hc
  | cons x rest ih =>
    simp only [splitLinesCh] at hl
    by_cases hx : x = '\n'
    · rw [if_pos hx] at hl
      rcases List.mem_cons.mp hl with rfl | hl'
      · simp at hc
      · exact List.mem_cons_of_mem _ (ih hl' hc)
    · rw [if_neg hx] at hl
      cases hrest : splitLinesCh rest with
      | nil =>
        rw [hrest] at hl
        simp only [List.mem_singleton] at hl
        subst hl
        rcases List.mem_cons.mp hc with rfl | hc'
        · exact List.mem_cons_self _ _
        · simp at hc'
      | cons l0 ls =>
        rw [hrest] at hl
        rcases List.mem_cons.mp hl with rfl | hl'
        · rcases List.mem_cons.mp hc with rfl | hc'
          · exact List.mem_cons_self _ _
          · exact List.mem_cons_of_mem _
              (ih (l := l0) (by rw [hrest]; exact List.mem_cons_self _ _) hc')
        · exact List.mem_cons_of_mem _
            (ih (l := l) (by rw [hrest]; exact List.mem_cons_of_mem _ hl') hc)

theorem classifyStep_blank {st : CState} {l : List Char}
    (h : ∀ c ∈ l, isPySpace c = true) :
    classifyStep st l = flushList (flushPara st) := by
  have hws : ∀ c ∈ pyRstrip l, isPySpace c = true :=
    fun c hc => h c (mem_pyRstrip hc)
  have hempty : (pyStrip (pyRstrip l)).isEmpty = true := by
    rw [pyStrip_allSpace hws]
    rfl
  unfold classifyStep
  simp only [hempty, if_true]

theorem foldl_classify_blank (lines : List (List Char))
    (h : ∀ l ∈ lines, ∀ c ∈ l, isPySpace c = true) :
    lines.foldl classifyStep initState = initState := by
  induction lines with
  | nil => rfl
  | cons l ls ih =>
    rw [List.foldl_cons, classifyStep_blank (h l (List.mem_cons_self _ _))]
    exact ih (fun l' hl' => h l' (List.mem_cons_of_mem _ hl'))

/-- Claim C9: the tokenizer, classifier, chunker and renderer are pure
and total: the fuelled loops stabilise at fuel = input length (Python's
loops terminate, consuming input each iteration), the tokenizer always
returns at least one run (a single empty run in the worst case), and
empty or whitespace-only input yields zero blocks without any failure. -/
theorem claim_C9_totality :
    (∀ (s : List Char) (fuel : Nat), s.length ≤ fuel →
       parseAux fuel s = parseAux s.length s) ∧
    (∀ s : List Char, 1 ≤ (parseRichText s).length) ∧
    (∀ L : Nat, 0 < L → ∀ (t : List Char) (fuel : Nat), t.length ≤ fuel →
       splitLongAux L fuel t = splitLongAux L t.length t) ∧
    parseRichText [] = [plainPart []] ∧
    createBlocksFromMarkdown [] = [] ∧
    (∀ s : List Char, (∀ c ∈ s, isPySpace c = true) →
       createBlocksFromMarkdown s = []) := by
  refine ⟨?_, parseRichText_len, ?_, by decide, by decide, ?_⟩
  · intro s fuel hf
    exact parseAux_stable fuel s.length s hf (le_refl _)
  · intro L hL t fuel hf
    exact splitLongAux_stable L hL fuel t.length t hf (le_refl _)
  · intro s hws
    unfold createBlocksFromMarkdown
    rw [foldl_classify_blank (splitLinesCh s)
      (fun l hl c hc => hws c (splitLinesCh_chars hl hc))]
    rfl

/-- Witness for claim C9: whitespace-only input yields zero blocks, and
the tokenizer's fuel stabilises on a concrete input. -/
theorem claim_C9_totality_witness :
    createBlocksFromMarkdown (str "  ") = [] ∧
    parseAux 7 (str "*a*") = parseAux (str "*a*").length (str "*a*") :=
  ⟨claim_C9_totality.2.2.2.2.2 (str "  ") (by decide),
   claim_C9_totality.1 (str "*a*") 7 (by decide)⟩

/-! ## The remote block tree and `_upsert_summary_in_notion`

The Notion store is modelled as an association list from block ids to
(payload, ordered children ids), with a fresh-id counter.  The payloads
keep exactly the fields the reconciler inspects: the type discriminator,
a heading's toggleability and rich-text contents, and the rendered blocks
it appends.  The `notion_service` operations can fail; failures are
injected through an oracle keyed by the block id a call addresses:
`get_block_children` and `append_block_children` raise (`NotionAPIError`,
re-raised by the handler as `NotionGeminiError`), while `delete_block`
catches every failure, logs it, and continues. -/

/-- Block payloads as far as the reconciler observes them. -/
inductive NodeData where
  | callout : NodeData
  | headingThree (toggleable : Bool) (texts : List (List Char)) : NodeData
  | rendered (b : Block) : NodeData
  | other (tag : Nat) : NodeData
deriving DecidableEq, Repr

/-- The container-marker test of step 1: block type equals 'callout'. -/
def isCallout : NodeData → Bool
  | .callout => true
  | _ => false

/-- The section test of step 3: a toggleable heading_3 whose first
rich-text element's content equals the configured title exactly. -/
def isMatchingH3 (title : List Char) : NodeData → Bool
  | .headingThree togg texts =>
    togg && (match texts.head? with
             | some t => t = title
             | none => false)
  | _ => false

/-- The remote tree: entries (id, payload, children ids) plus the next
fresh id the remote side will assign. -/
structure Store where
  entries : List (Nat × NodeData × List Nat)
  nextId : Nat
deriving DecidableEq, Repr

/-- First entry with the given id. -/
def findEntry : List (Nat × NodeData × List Nat) → Nat → Option (NodeData × List Nat)
  | [], _ => none
  | e :: es, i => if e.1 = i then some e.2 else findEntry es i

/-- Failure injection for the remote calls, by addressed block id. -/
structure Oracle where
  listFail : Nat → Bool
  appendFail : Nat → Bool
  deleteFail : Nat → Bool

/-- The all-successful oracle. -/
def noFail : Oracle := ⟨fun _ => false, fun _ => false, fun _ => false⟩

/-- `get_block_children`: the ordered children ids of a block (fails on
oracle failure or unknown id, as the HTTP call would). -/
def listChildren (o : Oracle) (st : Store) (i : Nat) : Except Unit (List Nat) :=
  if o.listFail i then .error ()
  else
    match findEntry st.entries i with
    | none => .error ()
    | some e => .ok e.2

/-- Append `extra` to the children list of the entry with id `i`. -/
def extendKids : List (Nat × NodeData × List Nat) → Nat → List Nat →
    List (Nat × NodeData × List Nat)
  | [], _, _ => []
  | e :: es, i, extra =>
    (if e.1 = i then (e.1, e.2.1, e.2.2 ++ extra) else e) :: extendKids es i extra

/-- The table entries of freshly created blocks (consecutive ids starting
at `n`, no children). -/
def newEntries : Nat → List NodeData → List (Nat × NodeData × List Nat)
  | _, [] => []
  | n, d :: ds => (n, d, ([] : List Nat)) :: newEntries (n + 1) ds

/-- The store after appending `ds` as new children of `i`. -/
def appendStore (st : Store) (i : Nat) (ds : List NodeData) : Store :=
  { entries := extendKids st.entries i (List.range' st.nextId ds.length) ++
      newEntries st.nextId ds,
    nextId := st.nextId + ds.length }

/-- `append_block_children`: create one block per spec, as the new last
children of `i`, returning the created ids in order. -/
def appendChildren (o : Oracle) (st : Store) (i : Nat) (ds : List NodeData) :
    Except Unit (Store × List Nat) :=
  if o.appendFail i then .error ()
  else
    match findEntry st.entries i with
    | none => .error ()
    | some _ => .ok (appendStore st i ds, List.range' st.nextId ds.length)

/-- `delete_block`: on success the block disappears from the table and
from every children list; every failure is swallowed (logged) and leaves
the store unchanged. -/
def deleteBlock (o : Oracle) (st : Store) (i : Nat) : Store :=
  if o.deleteFail i then st
  else
    { entries := (st.entries.filter (fun e => e.1 ≠ i)).map
        (fun e => (e.1, e.2.1, e.2.2.filter (fun k => k ≠ i))),
      nextId := st.nextId }

/-- The per-child deletion loop of step 5, in listing order. -/
def deleteAll (o : Oracle) (st : Store) (ks : List Nat) : Store :=
  ks.foldl (fun s k => deleteBlock o s k) st

/-- The ids of `ks` whose deletion succeeds. -/
def delSet (o : Oracle) (ks : List Nat) : List Nat :=
  ks.filter (fun k => !o.deleteFail k)

/-- First listed child whose payload satisfies `p` (the `break`-on-first
scan of the reconciler). -/
def firstSuch (st : Store) (p : NodeData → Bool) : List Nat → Option Nat
  | [] => none
  | k :: ks =>
    match findEntry st.entries k with
    | none => firstSuch st p ks
    | some e => if p e.1 then some k else firstSuch st p ks

/-- Steps 1-2: find the first callout child of the page, else create
one (`response['results'][0]['id']` is the head of the created ids). -/
def resolveCalloutStep (o : Oracle) (st : Store) (pid : Nat) :
    Except Unit (Store × Nat) :=
  match listChildren o st pid with
  | .error e => .error e
  | .ok kids =>
    match firstSuch st isCallout kids with
    | some c => .ok (st, c)
    | none =>
      match appendChildren o st pid [NodeData.callout] with
      | .error e => .error e
      | .ok (st', ids) =>
        match ids.head? with
        | some i => .ok (st', i)
        | none => .error ()

/-- Steps 3-4: find the first matching toggle-H3 child of the callout,
else create one with the literal title. -/
def resolveSectionStep (o : Oracle) (st : Store) (cid : Nat)
    (title : List Char) : Except Unit (Store × Nat) :=
  match listChildren o st cid with
  | .error e => .error e
  | .ok kids =>
    match firstSuch st (isMatchingH3 title) kids with
    | some h => .ok (st, h)
    | none =>
      match appendChildren o st cid [NodeData.headingThree true [title]] with
      | .error e => .error e
      | .ok (st', ids) =>
        match ids.head? with
        | some i => .ok (st', i)
        | none => .error ()

/-- Steps 5-6: list the section's children, delete each one individually
(failures tolerated), then append the new blocks in one batch. -/
def replaceChildren (o : Oracle) (st : Store) (hid : Nat)
    (ds : List NodeData) : Except Unit Store :=
  match listChildren o st hid with
  | .error e => .error e
  | .ok kids =>
    match appendChildren o (deleteAll o st kids) hid ds with
    | .error e => .error e
    | .ok (st', _) => .ok st'

/-- `_upsert_summary_in_notion` over already rendered blocks, returning
the resolved container and section ids alongside the final store. -/
def upsertSummary (o : Oracle) (st : Store) (pid : Nat) (title : List Char)
    (bs : List Block) : Except Unit (Store × Nat × Nat) :=
  match resolveCalloutStep o st pid with
  | .error e => .error e
  | .ok (st1, cid) =>
    match resolveSectionStep o st1 cid title with
    | .error e => .error e
    | .ok (st2, hid) =>
      match replaceChildren o st2 hid (bs.map NodeData.rendered) with
      | .error e => .error e
      | .ok st4 => .ok (st4, cid, hid)

/-- `_upsert_summary_in_notion`: the markdown summary is rendered by
`_create_blocks_from_markdown` and reconciled under the configured
section title. -/
def upsertSummaryInNotion (o : Oracle) (st : Store) (pid : Nat)
    (title : List Char) (md : List Char) : Except Unit (Store × Nat × Nat) :=
  upsertSummary o st pid title (createBlocksFromMarkdown md)

/-- The payload stored under an id. -/
def getData (st : Store) (i : Nat) : Option NodeData :=
  (findEntry st.entries i).map (fun e => e.1)

/-- The children list stored under an id. -/
def getKids (st : Store) (i : Nat) : Option (List Nat) :=
  (findEntry st.entries i).map (fun e => e.2)

/-- The container resolution of steps 1-2 on an unchanged store: the
first callout child of the page. -/
def resolveCallout (st : Store) (pid : Nat) : Option Nat :=
  match findEntry st.entries pid with
  | none => none
  | some e => firstSuch st isCallout e.2

/-- The section resolution of steps 3-4 on an unchanged store: the first
matching toggle-H3 child of the callout. -/
def resolveSection (st : Store) (cid : Nat) (title : List Char) : Option Nat :=
  match findEntry st.entries cid with
  | none => none
  | some e => firstSuch st (isMatchingH3 title) e.2

/-- All entry ids. -/
def keysOf (st : Store) : List Nat := st.entries.map (fun e => e.1)

/-- All ids appearing in some children list. -/
def allKids (st : Store) : List Nat := (st.entries.map (fun e => e.2.2)).flatten

/-- Well-formedness of a store as the remote API maintains it: ids are
unique and below the fresh-id counter, every block is the child of at
most one parent and appears once there, and the page itself is nobody's
child. -/
structure StoreOK (st : Store) (pid : Nat) : Prop where
  keys_nodup : (keysOf st).Nodup
  keys_lt : ∀ k ∈ keysOf st, k < st.nextId
  kids_lt : ∀ k ∈ allKids st, k < st.nextId
  kids_nodup : (allKids st).Nodup
  pid_not_kid : pid ∉ allKids st
  pid_key : pid ∈ keysOf st

/-! ## Basic store lemmas -/

/-- Entry ids of a raw entry list. -/
def keysL (es : List (Nat × NodeData × List Nat)) : List Nat :=
  es.map (fun e => e.1)

/-- Children ids of a raw entry list. -/
def allKidsL (es : List (Nat × NodeData × List Nat)) : List Nat :=
  (es.map (fun e => e.2.2)).flatten

@[simp] theorem keysL_nil : keysL [] = [] := rfl

@[simp] theorem keysL_cons (e : Nat × NodeData × List Nat) (es) :
    keysL (e :: es) = e.1 :: keysL es := rfl

@[simp] theorem allKidsL_nil : allKidsL [] = [] := rfl

@[simp] theorem allKidsL_cons (e : Nat × NodeData × List Nat) (es) :
    allKidsL (e :: es) = e.2.2 ++ allKidsL es := by
  simp [allKidsL]

theorem keysOf_eq (st : Store) : keysOf st = keysL st.entries := rfl

theorem allKids_eq (st : Store) : allKids st = allKidsL st.entries := rfl

theorem findEntry_eq_none {es : List (Nat × NodeData × List Nat)} {i : Nat}
    (h : i ∉ keysL es) : findEntry es i = none := by
  induction es with
  | nil => rfl
  | cons e es ih =>
    simp only [keysL_cons, List.mem_cons] at h
    push_neg at h
    have hne : ¬e.1 = i := fun he => h.1 he.symm
    simp only [findEntry, if_neg hne]
    exact ih h.2

theorem findEntry_mem_keys {es : List (Nat × NodeData × List Nat)} {i : Nat}
    {e : NodeData × List Nat} (h : findEntry es i = some e) : i ∈ keysL es := by
  by_contra hmem
  rw [findEntry_eq_none hmem] at h
  exact absurd h (by simp)

theorem findEntry_append (es es' : List (Nat × NodeData × List Nat)) (i : Nat) :
    findEntry (es ++ es') i =
      match findEntry es i with
      | some e => some e
      | none => findEntry es' i := by
  induction es with
  | nil => rfl
  | cons e es ih =>
    by_cases he : e.1 = i
    · simp [findEntry, he]
    · simp [findEntry, he, ih]

theorem findEntry_append_left {es es' : List (Nat × NodeData × List Nat)}
    {i : Nat} {e : NodeData × List Nat} (h : findEntry es i = some e) :
    findEntry (es ++ es') i = some e := by
  rw [findEntry_append, h]

theorem findEntry_append_right {es es' : List (Nat × NodeData × List Nat)}
    {i : Nat} (h : findEntry es i = none) :
    findEntry (es ++ es') i = findEntry es' i := by
  rw [findEntry_append, h]

@[simp] theorem extendKids_nil (i : Nat) (extra : List Nat) :
    extendKids [] i extra = [] := rfl

@[simp] theorem extendKids_cons (e : Nat × NodeData × List Nat)
    (es : List (Nat × NodeData × List Nat)) (i : Nat) (extra : List Nat) :
    extendKids (e :: es) i extra =
      (if e.1 = i then (e.1, e.2.1, e.2.2 ++ extra) else e) ::
        extendKids es i extra := rfl

theorem findEntry_extendKids (es : List (Nat × NodeData × List Nat))
    (i j : Nat) (extra : List Nat) :
    findEntry (extendKids es i extra) j =
      (findEntry es j).map (fun e => if j = i then (e.1, e.2 ++ extra) else e) := by
  induction es with
  | nil => rfl
  | cons e es ih =>
    obtain ⟨k, d, ks⟩ := e
    by_cases hej : k = j
    · subst hej
      by_cases hei : k = i
      · subst hei
        simp [findEntry]
      · have hik : ¬k = i := hei
        have hik2 : ¬i = k := fun h => hik h.symm
        simp [findEntry, hik, hik2]
    · by_cases hei : k = i
      · subst hei
        simp [findEntry, hej, ih]
      · simp [findEntry, hej, hei, ih]

theorem keysL_extendKids (es : List (Nat × NodeData × List Nat)) (i : Nat)
    (extra : List Nat) : keysL (extendKids es i extra) = keysL es := by
  induction es with
  | nil => rfl
  | cons e es ih =>
    by_cases he : e.1 = i <;> simp [extendKids, he, ih]

theorem keysL_newEntries (n : Nat) (ds : List NodeData) :
    keysL (newEntries n ds) = List.range' n ds.length := by
  induction ds generalizing n with
  | nil => rfl
  | cons d ds ih => simp [newEntries, List.range'_succ, ih]

theorem allKidsL_newEntries (n : Nat) (ds : List NodeData) :
    allKidsL (newEntries n ds) = [] := by
  induction ds generalizing n with
  | nil => rfl
  | cons d ds ih => simp [newEntries, ih]

theorem findEntry_newEntries_map (n : Nat) (ds : List NodeData) :
    (List.range' n ds.length).map
      (fun k => (findEntry (newEntries n ds) k).map (fun e => e.1)) =
      ds.map some := by
  induction ds generalizing n with
  | nil => rfl
  | cons d ds ih =>
    have hcongr : ∀ k ∈ List.range' (n + 1) ds.length,
        (findEntry ((n, d, ([] : List Nat)) :: newEntries (n + 1) ds) k).map
          (fun e => e.1) =
        (findEntry (newEntries (n + 1) ds) k).map (fun e => e.1) := by
      intro k hk
      have hkn : ¬n = k := by
        have := (List.mem_range'_1.mp hk).1
        omega
      simp [findEntry, hkn]
    simp only [List.length_cons, List.range'_succ, List.map_cons, newEntries]
    rw [List.map_congr_left hcongr, ih (n + 1)]
    simp [findEntry]

theorem kids_sub_allKidsL {es : List (Nat × NodeData × List Nat)} {j : Nat}
    {ej : NodeData × List Nat} (h : findEntry es j = some ej) :
    ∀ x ∈ ej.2, x ∈ allKidsL es := by
  induction es with
  | nil => simp [findEntry] at h
  | cons e es ih =>
    intro x hx
    simp only [findEntry] at h
    by_cases he : e.1 = j
    · rw [if_pos he] at h
      simp only [Option.some.injEq] at h
      subst h
      simp only [allKidsL_cons, List.mem_append]
      exact Or.inl hx
    · rw [if_neg he] at h
      simp only [allKidsL_cons, List.mem_append]
      exact Or.inr (ih h x hx)

theorem allKidsL_extendKids_subset {es : List (Nat × NodeData × List Nat)}
    {i : Nat} {extra : List Nat} {x : Nat}
    (h : x ∈ allKidsL (extendKids es i extra)) : x ∈ allKidsL es ∨ x ∈ extra := by
  induction es with
  | nil => simp [extendKids, allKidsL] at h
  | cons e es ih =>
    rw [extendKids_cons] at h
    by_cases he : e.1 = i
    · rw [if_pos he] at h
      simp only [allKidsL_cons, List.mem_append] at h
      rcases h with (h | h) | h
      · exact Or.inl (by simp [List.mem_append, h])
      · exact Or.inr h
      · rcases ih h with h' | h'
        · exact Or.inl (by simp [List.mem_append, h'])
        · exact Or.inr h'
    · rw [if_neg he] at h
      simp only [allKidsL_cons, List.mem_append] at h
      rcases h with h | h
      · exact Or.inl (by simp [List.mem_append, h])
      · rcases ih h with h' | h'
        · exact Or.inl (by simp [List.mem_append, h'])
        · exact Or.inr h'

theorem extendKids_of_not_mem {es : List (Nat × NodeData × List Nat)} {i : Nat}
    (h : i ∉ keysL es) (extra : List Nat) : extendKids es i extra = es := by
  induction es with
  | nil => rfl
  | cons e es ih =>
    simp only [keysL_cons, List.mem_cons] at h
    push_neg at h
    have hne : ¬e.1 = i := fun he => h.1 he.symm
    rw [extendKids_cons, if_neg hne, ih h.2]

theorem allKidsL_extendKids_nodup {es : List (Nat × NodeData × List Nat)}
    {i : Nat} {extra : List Nat}
    (hk : (keysL es).Nodup) (ha : (allKidsL es).Nodup) (he : extra.Nodup)
    (hd : ∀ x ∈ extra, x ∉ allKidsL es) :
    (allKidsL (extendKids es i extra)).Nodup := by
  induction es with
  | nil => simp [extendKids, allKidsL]
  | cons e es ih =>
    simp only [keysL_cons, List.nodup_cons] at hk
    rw [allKidsL_cons, List.nodup_append] at ha
    have hd1 : ∀ x ∈ extra, x ∉ e.2.2 := fun x hx hmem =>
      hd x hx (by rw [allKidsL_cons]; exact List.mem_append_left _ hmem)
    have hd2 : ∀ x ∈ extra, x ∉ allKidsL es := fun x hx hmem =>
      hd x hx (by rw [allKidsL_cons]; exact List.mem_append_right _ hmem)
    by_cases hei : e.1 = i
    · have hnot : i ∉ keysL es := by rw [← hei]; exact hk.1
      rw [extendKids_cons, if_pos hei, extendKids_of_not_mem hnot, allKidsL_cons]
      rw [List.nodup_append, List.nodup_append]
      refine ⟨⟨ha.1, he, fun x hx hx' => hd1 x hx' hx⟩, ha.2.1, ?_⟩
      intro x hx hx'
      rcases List.mem_append.mp hx with h' | h'
      · exact ha.2.2 h' hx'
      · exact hd2 x h' hx'
    · rw [extendKids_cons, if_neg hei, allKidsL_cons, List.nodup_append]
      refine ⟨ha.1, ih hk.2 ha.2.1 hd2, ?_⟩
      intro x hx hx'
      rcases allKidsL_extendKids_subset hx' with h' | h'
      · exact ha.2.2 hx h'
      · exact hd1 x h' hx

/-! ## Deletion lemmas -/

theorem findEntry_filterMapDel (es : List (Nat × NodeData × List Nat))
    (i j : Nat) :
    findEntry ((es.filter (fun e => e.1 ≠ i)).map
        (fun e => (e.1, e.2.1, e.2.2.filter (fun k => k ≠ i)))) j =
      if j = i then none
      else (findEntry es j).map (fun e => (e.1, e.2.filter (fun k => k ≠ i))) := by
  induction es with
  | nil =>
    by_cases hj : j = i <;> simp [findEntry, hj]
  | cons e es ih =>
    by_cases hei : e.1 = i
    · rw [List.filter_cons, if_neg (by simp [hei])]
      rw [ih]
      by_cases hj : j = i
      · rw [if_pos hj, if_pos hj]
      · rw [if_neg hj, if_neg hj]
        have hne : ¬e.1 = j := fun h => hj (by rw [← h, hei])
        simp only [findEntry, if_neg hne]
    · rw [List.filter_cons, if_pos (by simp [hei])]
      by_cases hej : e.1 = j
      · subst hej
        simp [findEntry, hei]
      · simp only [List.map_cons, findEntry, if_neg hej, ih]

@[simp] theorem nextId_deleteBlock (o : Oracle) (st : Store) (i : Nat) :
    (deleteBlock o st i).nextId = st.nextId := by
  unfold deleteBlock
  split <;> rfl

theorem deleteAll_cons (o : Oracle) (st : Store) (k : Nat) (ks : List Nat) :
    deleteAll o st (k :: ks) = deleteAll o (deleteBlock o st k) ks := rfl

@[simp] theorem deleteAll_nil (o : Oracle) (st : Store) :
    deleteAll o st [] = st := rfl

@[simp] theorem nextId_deleteAll (o : Oracle) (ks : List Nat) (st : Store) :
    (deleteAll o st ks).nextId = st.nextId := by
  induction ks generalizing st with
  | nil => rfl
  | cons k ks ih => rw [deleteAll_cons, ih, nextId_deleteBlock]

@[simp] theorem delSet_nil (o : Oracle) : delSet o [] = [] := rfl

theorem delSet_cons (o : Oracle) (k : Nat) (ks : List Nat) :
    delSet o (k :: ks) =
      if o.deleteFail k then delSet o ks else k :: delSet o ks := by
  by_cases h : o.deleteFail k <;> simp [delSet, List.filter_cons, h]

theorem mem_delSet {o : Oracle} {ks : List Nat} {x : Nat} :
    x ∈ delSet o ks ↔ x ∈ ks ∧ o.deleteFail x = false := by
  simp [delSet, List.mem_filter]

theorem findEntry_deleteBlock (o : Oracle) (st : Store) (i j : Nat) :
    findEntry (deleteBlock o st i).entries j =
      if o.deleteFail i then findEntry st.entries j
      else if j = i then none
      else (findEntry st.entries j).map
        (fun e => (e.1, e.2.filter (fun k => k ≠ i))) := by
  unfold deleteBlock
  by_cases hf : o.deleteFail i
  · simp [hf]
  · simp only [hf, Bool.false_eq_true, if_false]
    exact findEntry_filterMapDel st.entries i j

theorem findEntry_deleteAll (o : Oracle) (ks : List Nat) (st : Store) (j : Nat) :
    findEntry (deleteAll o st ks).entries j =
      if j ∈ delSet o ks then none
      else (findEntry st.entries j).map
        (fun e => (e.1, e.2.filter (fun k => k ∉ delSet o ks))) := by
  induction ks generalizing st with
  | nil =>
    simp only [deleteAll_nil, delSet_nil, List.not_mem_nil, if_false]
    cases h : findEntry st.entries j with
    | none => simp
    | some e => simp
  | cons k ks ih =>
    rw [deleteAll_cons, ih, delSet_cons]
    by_cases hf : o.deleteFail k
    · rw [if_pos hf]
      unfold deleteBlock
      rw [if_pos hf]
    · rw [if_neg hf]
      by_cases hj : j ∈ delSet o ks
      · rw [if_pos hj, if_pos (List.mem_cons_of_mem k hj)]
      · rw [if_neg hj]
        rw [findEntry_deleteBlock, if_neg hf]
        by_cases hjk : j = k
        · subst hjk
          rw [if_pos rfl, if_pos (List.mem_cons_self _ _)]
          simp
        · rw [if_neg hjk, if_neg (by simp [List.mem_cons, hjk, hj])]
          rw [Option.map_map]
          cases hfe : findEntry st.entries j with
          | none => simp
          | some e =>
            simp only [Option.map_some', Function.comp, Option.some.injEq,
              Prod.mk.injEq]
            refine ⟨trivial, ?_⟩
            rw [List.filter_filter]
            apply List.filter_congr
            intro x _
            by_cases hx1 : x ∈ delSet o ks <;> by_cases hx2 : x = k <;>
              simp [hx1, hx2, List.mem_cons]

/-! ## Append lemmas -/

theorem nextId_appendStore (st : Store) (i : Nat) (ds : List NodeData) :
    (appendStore st i ds).nextId = st.nextId + ds.length := rfl

theorem keysL_append (es es' : List (Nat × NodeData × List Nat)) :
    keysL (es ++ es') = keysL es ++ keysL es' := by
  simp [keysL]

theorem allKidsL_append (es es' : List (Nat × NodeData × List Nat)) :
    allKidsL (es ++ es') = allKidsL es ++ allKidsL es' := by
  simp [allKidsL]

theorem keysOf_appendStore (st : Store) (i : Nat) (ds : List NodeData) :
    keysOf (appendStore st i ds) = keysOf st ++ List.range' st.nextId ds.length := by
  rw [keysOf_eq, appendStore]
  rw [keysL_append, keysL_extendKids, keysL_newEntries, ← keysOf_eq]

theorem findEntry_newEntries_low {n j : Nat} {ds : List NodeData} (hj : j < n) :
    findEntry (newEntries n ds) j = none := by
  apply findEntry_eq_none
  rw [keysL_newEntries]
  intro hmem
  have := (List.mem_range'_1.mp hmem).1
  omega

theorem getData_appendStore_low {st : Store} {i : Nat} {ds : List NodeData}
    {j : Nat} (hj : j < st.nextId) :
    getData (appendStore st i ds) j = getData st j := by
  unfold getData appendStore
  rw [findEntry_append, findEntry_extendKids]
  cases h : findEntry st.entries j with
  | none => simp [findEntry_newEntries_low hj]
  | some e =>
    by_cases hji : j = i <;> simp [hji]

theorem getKids_appendStore_other {st : Store} {i : Nat} {ds : List NodeData}
    {j : Nat} (hj : j < st.nextId) (hne : j ≠ i) :
    getKids (appendStore st i ds) j = getKids st j := by
  unfold getKids appendStore
  rw [findEntry_append, findEntry_extendKids]
  cases h : findEntry st.entries j with
  | none => simp [findEntry_newEntries_low hj]
  | some e => simp [hne]

theorem getKids_appendStore_self {st : Store} {i : Nat} {ds : List NodeData}
    (hi : i < st.nextId) :
    getKids (appendStore st i ds) i =
      (getKids st i).map (fun ks => ks ++ List.range' st.nextId ds.length) := by
  unfold getKids appendStore
  rw [findEntry_append, findEntry_extendKids]
  cases h : findEntry st.entries i with
  | none => simp [findEntry_newEntries_low hi]
  | some e => simp

theorem getData_appendStore_new {st : Store} {i : Nat} {ds : List NodeData}
    (hkeys : ∀ k ∈ keysOf st, k < st.nextId) :
    (List.range' st.nextId ds.length).map (fun k => getData (appendStore st i ds) k) =
      ds.map some := by
  have hstep : ∀ k ∈ List.range' st.nextId ds.length,
      getData (appendStore st i ds) k =
        (findEntry (newEntries st.nextId ds) k).map (fun e => e.1) := by
    intro k hk
    have hk1 := (List.mem_range'_1.mp hk).1
    unfold getData appendStore
    rw [findEntry_append]
    have hpre : findEntry (extendKids st.entries i
        (List.range' st.nextId ds.length)) k = none := by
      apply findEntry_eq_none
      rw [keysL_extendKids]
      intro hmem
      have := hkeys k hmem
      omega
    rw [hpre]
  rw [List.map_congr_left hstep]
  exact findEntry_newEntries_map st.nextId ds

/-! ## First-match scan lemmas -/

theorem firstSuch_cons_none {st : Store} {p : NodeData → Bool} {k : Nat}
    {ks : List Nat} (hfe : findEntry st.entries k = none) :
    firstSuch st p (k :: ks) = firstSuch st p ks := by
  simp [firstSuch, hfe]

theorem firstSuch_cons_found {st : Store} {p : NodeData → Bool} {k : Nat}
    {ks : List Nat} {e : NodeData × List Nat}
    (hfe : findEntry st.entries k = some e) (hp : p e.1 = true) :
    firstSuch st p (k :: ks) = some k := by
  simp [firstSuch, hfe, hp]

theorem firstSuch_cons_skip {st : Store} {p : NodeData → Bool} {k : Nat}
    {ks : List Nat} {e : NodeData × List Nat}
    (hfe : findEntry st.entries k = some e) (hp : p e.1 = false) :
    firstSuch st p (k :: ks) = firstSuch st p ks := by
  simp [firstSuch, hfe, hp]

theorem firstSuch_mem {st : Store} {p : NodeData → Bool} {ks : List Nat} {c : Nat}
    (h : firstSuch st p ks = some c) :
    c ∈ ks ∧ ∃ e, findEntry st.entries c = some e ∧ p e.1 = true := by
  induction ks with
  | nil => simp [firstSuch] at h
  | cons k ks ih =>
    cases hfe : findEntry st.entries k with
    | none =>
      rw [firstSuch_cons_none hfe] at h
      obtain ⟨hm, he⟩ := ih h
      exact ⟨List.mem_cons_of_mem _ hm, he⟩
    | some e =>
      cases hp : p e.1 with
      | true =>
        rw [firstSuch_cons_found hfe hp] at h
        obtain rfl : k = c := by simpa using h
        exact ⟨List.mem_cons_self _ _, e, hfe, hp⟩
      | false =>
        rw [firstSuch_cons_skip hfe hp] at h
        obtain ⟨hm, he⟩ := ih h
        exact ⟨List.mem_cons_of_mem _ hm, he⟩

theorem firstSuch_append_some {st : Store} {p : NodeData → Bool}
    {l1 l2 : List Nat} {c : Nat} (h : firstSuch st p l1 = some c) :
    firstSuch st p (l1 ++ l2) = some c := by
  induction l1 with
  | nil => simp [firstSuch] at h
  | cons k ks ih =>
    rw [List.cons_append]
    cases hfe : findEntry st.entries k with
    | none =>
      rw [firstSuch_cons_none hfe] at h ⊢
      exact ih h
    | some e =>
      cases hp : p e.1 with
      | true =>
        rw [firstSuch_cons_found hfe hp] at h ⊢
        exact h
      | false =>
        rw [firstSuch_cons_skip hfe hp] at h ⊢
        exact ih h

theorem firstSuch_append_none {st : Store} {p : NodeData → Bool}
    {l1 : List Nat} (l2 : List Nat) (h : firstSuch st p l1 = none) :
    firstSuch st p (l1 ++ l2) = firstSuch st p l2 := by
  induction l1 with
  | nil => rfl
  | cons k ks ih =>
    rw [List.cons_append]
    cases hfe : findEntry st.entries k with
    | none =>
      rw [firstSuch_cons_none hfe] at h ⊢
      exact ih h
    | some e =>
      cases hp : p e.1 with
      | true =>
        rw [firstSuch_cons_found hfe hp] at h
        exact absurd h (by simp)
      | false =>
        rw [firstSuch_cons_skip hfe hp] at h ⊢
        exact ih h

theorem firstSuch_congr {st st' : Store} {p : NodeData → Bool} {ks : List Nat}
    (h : ∀ k ∈ ks, getData st' k = getData st k) :
    firstSuch st' p ks = firstSuch st p ks := by
  induction ks with
  | nil => rfl
  | cons k ks ih =>
    have hk := h k (List.mem_cons_self _ _)
    have hrest := fun x hx => h x (List.mem_cons_of_mem _ hx)
    unfold getData at hk
    cases hfe : findEntry st.entries k with
    | none =>
      rw [hfe] at hk
      simp only [Option.map_none'] at hk
      cases hfe' : findEntry st'.entries k with
      | none =>
        rw [firstSuch_cons_none hfe, firstSuch_cons_none hfe']
        exact ih hrest
      | some e' =>
        rw [hfe'] at hk
        simp at hk
    | some e =>
      rw [hfe] at hk
      cases hfe' : findEntry st'.entries k with
      | none =>
        rw [hfe'] at hk
        simp at hk
      | some e' =>
        rw [hfe'] at hk
        simp only [Option.map_some', Option.some.injEq] at hk
        cases hp : p e.1 with
        | true =>
          rw [firstSuch_cons_found hfe hp,
            firstSuch_cons_found hfe' (by rw [hk, hp])]
        | false =>
          rw [firstSuch_cons_skip hfe hp,
            firstSuch_cons_skip hfe' (by rw [hk, hp])]
          exact ih hrest

/-! ## Disjointness of sibling children lists -/

theorem kids_disjoint_L {es : List (Nat × NodeData × List Nat)} {i j : Nat}
    {ei ej : NodeData × List Nat}
    (hknd : (keysL es).Nodup) (hand : (allKidsL es).Nodup) (hne : i ≠ j)
    (hi : findEntry es i = some ei) (hj : findEntry es j = some ej) :
    ∀ x ∈ ei.2, x ∉ ej.2 := by
  induction es with
  | nil => simp [findEntry] at hi
  | cons e es ih =>
    simp only [keysL_cons, List.nodup_cons] at hknd
    rw [allKidsL_cons, List.nodup_append] at hand
    simp only [findEntry] at hi hj
    by_cases he1 : e.1 = i
    · rw [if_pos he1] at hi
      have he2 : ¬e.1 = j := fun h => hne (by rw [← he1, h])
      rw [if_neg he2] at hj
      have hei2 : e.2 = ei := by simpa using hi
      subst hei2
      intro x hx hx'
      exact hand.2.2 hx (kids_sub_allKidsL hj x hx')
    · rw [if_neg he1] at hi
      by_cases he2 : e.1 = j
      · rw [if_pos he2] at hj
        have hej2 : e.2 = ej := by simpa using hj
        subst hej2
        intro x hx hx'
        exact hand.2.2 hx' (kids_sub_allKidsL hi x hx)
      · rw [if_neg he2] at hj
        exact ih hknd.2 hand.2.1 hi hj

/-! ## Characterization of the remote operations on success -/

theorem listChildren_ok {o : Oracle} {st : Store} {i : Nat} {kids : List Nat}
    (h : listChildren o st i = .ok kids) :
    o.listFail i = false ∧ ∃ e, findEntry st.entries i = some e ∧ kids = e.2 := by
  unfold listChildren at h
  split at h
  · simp at h
  · rename_i hlf
    split at h
    · simp at h
    · rename_i e hfe
      simp only [Except.ok.injEq] at h
      exact ⟨by simpa using hlf, e, hfe, h.symm⟩

theorem appendChildren_ok {o : Oracle} {st : Store} {i : Nat} {ds : List NodeData}
    {st' : Store} {ids : List Nat}
    (h : appendChildren o st i ds = .ok (st', ids)) :
    o.appendFail i = false ∧ (∃ e, findEntry st.entries i = some e) ∧
      ids = List.range' st.nextId ds.length ∧ st' = appendStore st i ds := by
  unfold appendChildren at h
  split at h
  · simp at h
  · rename_i hf
    split at h
    · simp at h
    · rename_i e hfe
      simp only [Except.ok.injEq, Prod.mk.injEq] at h
      exact ⟨by simpa using hf, ⟨e, hfe⟩, h.2.symm, h.1.symm⟩

theorem resolveCallout_eq {st : Store} {pid : Nat} {e : NodeData × List Nat}
    (hfe : findEntry st.entries pid = some e) :
    resolveCallout st pid = firstSuch st isCallout e.2 := by
  simp [resolveCallout, hfe]

theorem resolveSection_eq {st : Store} {cid : Nat} {title : List Char}
    {e : NodeData × List Nat} (hfe : findEntry st.entries cid = some e) :
    resolveSection st cid title = firstSuch st (isMatchingH3 title) e.2 := by
  simp [resolveSection, hfe]

theorem resolveCalloutStep_ok {o : Oracle} {st : Store} {pid : Nat}
    {st1 : Store} {c : Nat}
    (h : resolveCalloutStep o st pid = .ok (st1, c)) :
    o.listFail pid = false ∧
    ∃ e, findEntry st.entries pid = some e ∧
      ((firstSuch st isCallout e.2 = some c ∧ st1 = st) ∨
       (firstSuch st isCallout e.2 = none ∧ o.appendFail pid = false ∧
        c = st.nextId ∧ st1 = appendStore st pid [NodeData.callout])) := by
  unfold resolveCalloutStep at h
  split at h
  · simp at h
  · rename_i kids hlc
    obtain ⟨hlf, e, hfe, rfl⟩ := listChildren_ok hlc
    refine ⟨hlf, e, hfe, ?_⟩
    split at h
    · rename_i c' hfs
      simp only [Except.ok.injEq, Prod.mk.injEq] at h
      exact Or.inl ⟨by rw [hfs, h.2], h.1.symm⟩
    · rename_i hfs
      split at h
      · simp at h
      · rename_i stp ids hap
        obtain ⟨haf, _, hids, hst⟩ := appendChildren_ok hap
        split at h
        · rename_i i0 hhead
          simp only [Except.ok.injEq, Prod.mk.injEq] at h
          subst hids
          simp only [List.length_cons, List.length_nil, List.range'_succ,
            List.head?_cons, Option.some.injEq] at hhead
          exact Or.inr ⟨hfs, haf, by omega, by rw [← h.1, hst]⟩
        · simp at h

theorem resolveSectionStep_ok {o : Oracle} {st : Store} {cid : Nat}
    {title : List Char} {st1 : Store} {hsec : Nat}
    (h : resolveSectionStep o st cid title = .ok (st1, hsec)) :
    o.listFail cid = false ∧
    ∃ e, findEntry st.entries cid = some e ∧
      ((firstSuch st (isMatchingH3 title) e.2 = some hsec ∧ st1 = st) ∨
       (firstSuch st (isMatchingH3 title) e.2 = none ∧ o.appendFail cid = false ∧
        hsec = st.nextId ∧
        st1 = appendStore st cid [NodeData.headingThree true [title]])) := by
  unfold resolveSectionStep at h
  split at h
  · simp at h
  · rename_i kids hlc
    obtain ⟨hlf, e, hfe, rfl⟩ := listChildren_ok hlc
    refine ⟨hlf, e, hfe, ?_⟩
    split at h
    · rename_i c' hfs
      simp only [Except.ok.injEq, Prod.mk.injEq] at h
      exact Or.inl ⟨by rw [hfs, h.2], h.1.symm⟩
    · rename_i hfs
      split at h
      · simp at h
      · rename_i stp ids hap
        obtain ⟨haf, _, hids, hst⟩ := appendChildren_ok hap
        split at h
        · rename_i i0 hhead
          simp only [Except.ok.injEq, Prod.mk.injEq] at h
          subst hids
          simp only [List.length_cons, List.length_nil, List.range'_succ,
            List.head?_cons, Option.some.injEq] at hhead
          exact Or.inr ⟨hfs, haf, by omega, by rw [← h.1, hst]⟩
        · simp at h

theorem replaceChildren_ok {o : Oracle} {st : Store} {hid : Nat}
    {ds : List NodeData} {st' : Store}
    (h : replaceChildren o st hid ds = .ok st') :
    o.listFail hid = false ∧ o.appendFail hid = false ∧
    ∃ e, findEntry st.entries hid = some e ∧ hid ∉ delSet o e.2 ∧
      st' = appendStore (deleteAll o st e.2) hid ds := by
  unfold replaceChildren at h
  split at h
  · simp at h
  · rename_i kids hlc
    obtain ⟨hlf, e, hfe, rfl⟩ := listChildren_ok hlc
    split at h
    · simp at h
    · rename_i stp ids hap
      obtain ⟨haf, ⟨e', hfe'⟩, _, hst⟩ := appendChildren_ok hap
      have hning : hid ∉ delSet o e.2 := by
        intro hmem
        rw [findEntry_deleteAll, if_pos hmem] at hfe'
        exact absurd hfe' (by simp)
      refine ⟨hlf, haf, e, hfe, hning, ?_⟩
      simp only [Except.ok.injEq] at h
      rw [← h, hst]

/-! ## Preservation of store well-formedness -/

theorem appendStore_preserves {st : Store} {pid i : Nat} {ds : List NodeData}
    (H : StoreOK st pid) (_hi : i ∈ keysOf st) :
    StoreOK (appendStore st i ds) pid := by
  obtain ⟨hkn, hkl, hcl, hcn, hpn, hpk⟩ := H
  have hkeys : keysOf (appendStore st i ds) =
      keysOf st ++ List.range' st.nextId ds.length := keysOf_appendStore st i ds
  have hkids : allKids (appendStore st i ds) =
      allKidsL (extendKids st.entries i (List.range' st.nextId ds.length)) := by
    rw [allKids_eq]
    show allKidsL (extendKids st.entries i (List.range' st.nextId ds.length) ++
      newEntries st.nextId ds) = _
    rw [allKidsL_append, allKidsL_newEntries, List.append_nil]
  constructor
  · rw [hkeys, List.nodup_append]
    refine ⟨hkn, List.nodup_range' _ _, ?_⟩
    intro x hx hx'
    have h1 := hkl x hx
    have h2 := (List.mem_range'_1.mp hx').1
    omega
  · rw [hkeys]
    intro k hk
    rw [nextId_appendStore]
    rcases List.mem_append.mp hk with hk | hk
    · have := hkl k hk; omega
    · have := (List.mem_range'_1.mp hk).2; omega
  · rw [hkids]
    intro k hk
    rw [nextId_appendStore]
    rcases allKidsL_extendKids_subset hk with hk | hk
    · have := hcl k (by rw [allKids_eq]; exact hk); omega
    · have := (List.mem_range'_1.mp hk).2; omega
  · rw [hkids]
    refine allKidsL_extendKids_nodup ?_ ?_ (List.nodup_range' _ _) ?_
    · exact hkn
    · rw [← allKids_eq]; exact hcn
    · intro x hx hmem
      have h1 := (List.mem_range'_1.mp hx).1
      have h2 := hcl x (by rw [allKids_eq]; exact hmem)
      omega
  · rw [hkids]
    intro hmem
    rcases allKidsL_extendKids_subset hmem with h | h
    · exact hpn (by rw [allKids_eq]; exact h)
    · have h1 := (List.mem_range'_1.mp h).1
      have h2 := hkl pid hpk
      omega
  · rw [hkeys]
    exact List.mem_append_left _ hpk

theorem keysL_filterMapDel_sublist (es : List (Nat × NodeData × List Nat))
    (i : Nat) :
    List.Sublist (keysL ((es.filter (fun e => e.1 ≠ i)).map
      (fun e => (e.1, e.2.1, e.2.2.filter (fun k => k ≠ i))))) (keysL es) := by
  induction es with
  | nil => simp
  | cons e es ih =>
    rw [List.filter_cons]
    by_cases hf : e.1 ≠ i
    · rw [if_pos (by simpa using hf)]
      simp only [List.map_cons, keysL_cons]
      exact List.Sublist.cons₂ _ ih
    · rw [if_neg (by simpa using hf)]
      rw [keysL_cons]
      exact List.Sublist.trans ih (List.sublist_cons_self _ _)

theorem allKidsL_filterMapDel_sublist (es : List (Nat × NodeData × List Nat))
    (i : Nat) :
    List.Sublist (allKidsL ((es.filter (fun e => e.1 ≠ i)).map
      (fun e => (e.1, e.2.1, e.2.2.filter (fun k => k ≠ i))))) (allKidsL es) := by
  induction es with
  | nil => simp
  | cons e es ih =>
    rw [List.filter_cons]
    by_cases hf : e.1 ≠ i
    · rw [if_pos (by simpa using hf)]
      simp only [List.map_cons, allKidsL_cons]
      exact List.Sublist.append (List.filter_sublist _) ih
    · rw [if_neg (by simpa using hf)]
      rw [allKidsL_cons]
      exact List.Sublist.trans ih (List.sublist_append_right _ _)

theorem deleteBlock_preserves {o : Oracle} {st : Store} {pid i : Nat}
    (H : StoreOK st pid) (hpi : pid ≠ i) : StoreOK (deleteBlock o st i) pid := by
  obtain ⟨hkn, hkl, hcl, hcn, hpn, hpk⟩ := H
  unfold deleteBlock
  split
  · exact ⟨hkn, hkl, hcl, hcn, hpn, hpk⟩
  · have hksub := keysL_filterMapDel_sublist st.entries i
    have hasub := allKidsL_filterMapDel_sublist st.entries i
    constructor
    · exact hksub.nodup hkn
    · intro k hk
      exact hkl k (hksub.subset hk)
    · intro k hk
      exact hcl k (hasub.subset hk)
    · exact hasub.nodup hcn
    · intro hmem
      exact hpn (hasub.subset hmem)
    · show pid ∈ keysL _
      obtain ⟨e, he, hpe⟩ := List.mem_map.mp hpk
      refine List.mem_map.mpr ⟨(e.1, e.2.1, e.2.2.filter (fun k => k ≠ i)), ?_, hpe⟩
      exact List.mem_map.mpr ⟨e, List.mem_filter.mpr ⟨he, by
        simp only [hpe, decide_not]
        simpa using hpi⟩, rfl⟩

theorem deleteAll_preserves {o : Oracle} {st : Store} {pid : Nat} {ks : List Nat}
    (H : StoreOK st pid) (hpk : pid ∉ ks) : StoreOK (deleteAll o st ks) pid := by
  induction ks generalizing st with
  | nil => exact H
  | cons k ks ih =>
    rw [deleteAll_cons]
    refine ih (deleteBlock_preserves H ?_) ?_
    · exact fun h => hpk (h ▸ List.mem_cons_self _ _)
    · exact fun h => hpk (List.mem_cons_of_mem _ h)

/-! ## Helper observations -/

theorem findEntry_of_getData_getKids {st : Store} {i : Nat} {d : NodeData}
    {ks : List Nat} (hd : getData st i = some d) (hk : getKids st i = some ks) :
    findEntry st.entries i = some (d, ks) := by
  unfold getData at hd
  unfold getKids at hk
  cases h : findEntry st.entries i with
  | none => rw [h] at hd; simp at hd
  | some e =>
    rw [h] at hd hk
    simp only [Option.map_some', Option.some.injEq] at hd hk
    rw [← hd, ← hk]

theorem delSet_noFail (ks : List Nat) : delSet noFail ks = ks := by
  simp [delSet, noFail]

theorem getData_deleteAll_low {o : Oracle} {st : Store} {ks : List Nat} {j : Nat}
    (hj : j ∉ delSet o ks) :
    getData (deleteAll o st ks) j = getData st j := by
  unfold getData
  rw [findEntry_deleteAll, if_neg hj]
  cases findEntry st.entries j <;> simp

theorem getKids_deleteAll {o : Oracle} {st : Store} {ks : List Nat} {j : Nat}
    (hj : j ∉ delSet o ks) :
    getKids (deleteAll o st ks) j =
      (getKids st j).map (fun l => l.filter (fun k => k ∉ delSet o ks)) := by
  unfold getKids
  rw [findEntry_deleteAll, if_neg hj]
  cases findEntry st.entries j <;> simp

theorem findEntry_appendStore_single {st : Store} {i : Nat} {d : NodeData}
    (hkeys : ∀ k ∈ keysOf st, k < st.nextId) :
    findEntry (appendStore st i [d]).entries st.nextId = some (d, []) := by
  show findEntry (extendKids st.entries i (List.range' st.nextId 1) ++
    newEntries st.nextId [d]) st.nextId = some (d, [])
  rw [findEntry_append_right]
  · show findEntry ((st.nextId, d, ([] : List Nat)) :: newEntries (st.nextId + 1) [])
      st.nextId = _
    simp [findEntry, newEntries]
  · apply findEntry_eq_none
    rw [keysL_extendKids]
    intro hmem
    have := hkeys _ hmem
    omega

/-! ## A run on an already resolved store -/

theorem upsert_resolved {o : Oracle} {st : Store} {pid : Nat} {title : List Char}
    {bs : List Block} {st' : Store} {c' h' c h : Nat}
    (hc : resolveCallout st pid = some c)
    (hh : resolveSection st c title = some h)
    (hok : upsertSummary o st pid title bs = .ok (st', c', h')) :
    c' = c ∧ h' = h ∧ replaceChildren o st h (bs.map NodeData.rendered) = .ok st' := by
  unfold upsertSummary at hok
  split at hok
  · simp at hok
  · rename_i stA cid hstep1
    obtain ⟨_, e, hfe, hcase⟩ := resolveCalloutStep_ok hstep1
    rw [resolveCallout_eq hfe] at hc
    rcases hcase with ⟨hfs, rfl⟩ | ⟨hfs, _, _, _⟩
    · obtain rfl : cid = c := by rw [hfs] at hc; simpa using hc
      split at hok
      · simp at hok
      · rename_i stB hid hstep2
        obtain ⟨_, e2, hfe2, hcase2⟩ := resolveSectionStep_ok hstep2
        rw [resolveSection_eq hfe2] at hh
        rcases hcase2 with ⟨hfs2, rfl⟩ | ⟨hfs2, _, _, _⟩
        · obtain rfl : hid = h := by rw [hfs2] at hh; simpa using hh
          split at hok
          · simp at hok
          · rename_i st4 hrep
            simp only [Except.ok.injEq, Prod.mk.injEq] at hok
            obtain ⟨rfl, rfl, rfl⟩ := hok
            exact ⟨rfl, rfl, hrep⟩
        · rw [hfs2] at hh
          simp at hh
    · rw [hfs] at hc
      simp at hc

/-! ## A successful run leaves the store resolved -/

theorem resolveCallout_inv {st : Store} {pid c : Nat}
    (h : resolveCallout st pid = some c) :
    ∃ e, findEntry st.entries pid = some e ∧ firstSuch st isCallout e.2 = some c := by
  unfold resolveCallout at h
  split at h
  · simp at h
  · rename_i e hfe
    exact ⟨e, hfe, h⟩

theorem resolveSection_inv {st : Store} {cid : Nat} {title : List Char} {h0 : Nat}
    (h : resolveSection st cid title = some h0) :
    ∃ e, findEntry st.entries cid = some e ∧
      firstSuch st (isMatchingH3 title) e.2 = some h0 := by
  unfold resolveSection at h
  split at h
  · simp at h
  · rename_i e hfe
    exact ⟨e, hfe, h⟩

theorem range'_one (n : Nat) : List.range' n 1 = [n] := rfl

theorem upsert_ok_resolves {st0 : Store} {pid : Nat} {title : List Char}
    {bs : List Block} {st1 : Store} {c1 h1 : Nat}
    (H : StoreOK st0 pid)
    (hok : upsertSummary noFail st0 pid title bs = .ok (st1, c1, h1)) :
    resolveCallout st1 pid = some c1 ∧ resolveSection st1 c1 title = some h1 ∧
      (∀ k ∈ keysOf st1, k < st1.nextId) := by
  unfold upsertSummary at hok
  split at hok
  · simp at hok
  · rename_i stA cid hstep1
    split at hok
    · simp at hok
    · rename_i stB hid hstep2
      split at hok
      · simp at hok
      · rename_i st4 hrep
        simp only [Except.ok.injEq, Prod.mk.injEq] at hok
        obtain ⟨rfl, rfl, rfl⟩ := hok
        obtain ⟨_, eP, hfeP, hcase1⟩ := resolveCalloutStep_ok hstep1
        have hstageA : StoreOK stA pid ∧ resolveCallout stA pid = some cid := by
          rcases hcase1 with ⟨hfs, rfl⟩ | ⟨hfs, _, hc1, rfl⟩
          · exact ⟨H, by rw [resolveCallout_eq hfeP]; exact hfs⟩
          · subst hc1
            constructor
            · exact appendStore_preserves H (findEntry_mem_keys hfeP)
            · have hpidlt : pid < st0.nextId := H.keys_lt pid H.pid_key
              have hgd : getData (appendStore st0 pid [NodeData.callout]) pid =
                  some eP.1 := by
                rw [getData_appendStore_low hpidlt]
                unfold getData
                rw [hfeP]
                rfl
              have hgk : getKids (appendStore st0 pid [NodeData.callout]) pid =
                  some (eP.2 ++ [st0.nextId]) := by
                rw [getKids_appendStore_self hpidlt]
                unfold getKids
                rw [hfeP]
                simp [range'_one]
              have hfind := findEntry_of_getData_getKids hgd hgk
              rw [resolveCallout_eq hfind]
              have hnone : firstSuch (appendStore st0 pid [NodeData.callout])
                  isCallout eP.2 = none := by
                rw [firstSuch_congr (fun k hk =>
                  getData_appendStore_low
                    (H.kids_lt k (kids_sub_allKidsL hfeP k hk)))]
                exact hfs
              rw [firstSuch_append_none _ hnone]
              exact firstSuch_cons_found
                (findEntry_appendStore_single H.keys_lt) rfl
        obtain ⟨hA_OK, hA_res⟩ := hstageA
        obtain ⟨_, eC, hfeC, hcase2⟩ := resolveSectionStep_ok hstep2
        have hstageB : StoreOK stB pid ∧ resolveCallout stB pid = some cid ∧
            resolveSection stB cid title = some hid := by
          rcases hcase2 with ⟨hfs2, rfl⟩ | ⟨hfs2, _, hh1, rfl⟩
          · exact ⟨hA_OK, hA_res, by rw [resolveSection_eq hfeC]; exact hfs2⟩
          · subst hh1
            have hcidkeys : cid ∈ keysOf stA := findEntry_mem_keys hfeC
            have hcidlt : cid < stA.nextId := hA_OK.keys_lt cid hcidkeys
            have hOKB := @appendStore_preserves stA pid cid
              [NodeData.headingThree true [title]] hA_OK hcidkeys
            have hpidlt : pid < stA.nextId := hA_OK.keys_lt pid hA_OK.pid_key
            obtain ⟨ePA, hfePA, hfsPA⟩ := resolveCallout_inv hA_res
            have hcidmem : cid ∈ ePA.2 := (firstSuch_mem hfsPA).1
            have hpidne : pid ≠ cid := by
              intro hpc
              exact hA_OK.pid_not_kid (hpc ▸ kids_sub_allKidsL hfePA cid hcidmem)
            refine ⟨hOKB, ?_, ?_⟩
            · have hgd : getData (appendStore stA cid
                  [NodeData.headingThree true [title]]) pid = some ePA.1 := by
                rw [getData_appendStore_low hpidlt]
                unfold getData
                rw [hfePA]
                rfl
              have hgk : getKids (appendStore stA cid
                  [NodeData.headingThree true [title]]) pid = some ePA.2 := by
                rw [getKids_appendStore_other hpidlt hpidne]
                unfold getKids
                rw [hfePA]
                rfl
              have hfind := findEntry_of_getData_getKids hgd hgk
              rw [resolveCallout_eq hfind]
              rw [firstSuch_congr (fun k hk =>
                getData_appendStore_low
                  (hA_OK.kids_lt k (kids_sub_allKidsL hfePA k hk)))]
              exact hfsPA
            · have hgd : getData (appendStore stA cid
                  [NodeData.headingThree true [title]]) cid = some eC.1 := by
                rw [getData_appendStore_low hcidlt]
                unfold getData
                rw [hfeC]
                rfl
              have hgk : getKids (appendStore stA cid
                  [NodeData.headingThree true [title]]) cid =
                  some (eC.2 ++ [stA.nextId]) := by
                rw [getKids_appendStore_self hcidlt]
                unfold getKids
                rw [hfeC]
                simp [range'_one]
              have hfind := findEntry_of_getData_getKids hgd hgk
              rw [resolveSection_eq hfind]
              have hnone : firstSuch (appendStore stA cid
                  [NodeData.headingThree true [title]])
                  (isMatchingH3 title) eC.2 = none := by
                rw [firstSuch_congr (fun k hk =>
                  getData_appendStore_low
                    (hA_OK.kids_lt k (kids_sub_allKidsL hfeC k hk)))]
                exact hfs2
              rw [firstSuch_append_none _ hnone]
              exact firstSuch_cons_found
                (findEntry_appendStore_single hA_OK.keys_lt)
                (by simp [isMatchingH3])
        obtain ⟨hB_OK, hB_resC, hB_resS⟩ := hstageB
        obtain ⟨_, _, eH, hfeH, hHdel, hst1⟩ := replaceChildren_ok hrep
        rw [delSet_noFail] at hHdel
        obtain ⟨ePB, hfePB, hfsPB⟩ := resolveCallout_inv hB_resC
        obtain ⟨eCB, hfeCB, hfsCB⟩ := resolveSection_inv hB_resS
        have hcidmemP : cid ∈ ePB.2 := (firstSuch_mem hfsPB).1
        have hhidmemC : hid ∈ eCB.2 := (firstSuch_mem hfsCB).1
        have hcidkid : cid ∈ allKids stB := kids_sub_allKidsL hfePB cid hcidmemP
        have hhidkid : hid ∈ allKids stB := kids_sub_allKidsL hfeCB hid hhidmemC
        have hpidne_c : pid ≠ cid := fun h => hB_OK.pid_not_kid (h ▸ hcidkid)
        have hpidne_h : pid ≠ hid := fun h => hB_OK.pid_not_kid (h ▸ hhidkid)
        have hcidne_h : cid ≠ hid := by
          intro hch
          have hd := kids_disjoint_L hB_OK.keys_nodup hB_OK.kids_nodup
            hpidne_c hfePB hfeCB
          exact hd cid hcidmemP (hch ▸ hhidmemC)
        have hpidlt : pid < stB.nextId := hB_OK.keys_lt pid hB_OK.pid_key
        have hcidlt : cid < stB.nextId := hB_OK.kids_lt cid hcidkid
        have hdisjP := kids_disjoint_L hB_OK.keys_nodup hB_OK.kids_nodup
          hpidne_h hfePB hfeH
        have hdisjC := kids_disjoint_L hB_OK.keys_nodup hB_OK.kids_nodup
          hcidne_h hfeCB hfeH
        have hpid_not_del : pid ∉ eH.2 := fun hmem =>
          hB_OK.pid_not_kid (kids_sub_allKidsL hfeH pid hmem)
        have hcid_not_del : cid ∉ eH.2 := hdisjP cid hcidmemP
        have hDnext : (deleteAll noFail stB eH.2).nextId = stB.nextId :=
          nextId_deleteAll noFail eH.2 stB
        subst hst1
        refine ⟨?_, ?_, ?_⟩
        · have hgdP : getData (appendStore (deleteAll noFail stB eH.2) hid
              (bs.map NodeData.rendered)) pid = some ePB.1 := by
            rw [getData_appendStore_low (by rw [hDnext]; exact hpidlt)]
            rw [getData_deleteAll_low (by rw [delSet_noFail]; exact hpid_not_del)]
            unfold getData
            rw [hfePB]
            rfl
          have hgkP : getKids (appendStore (deleteAll noFail stB eH.2) hid
              (bs.map NodeData.rendered)) pid = some ePB.2 := by
            rw [getKids_appendStore_other (by rw [hDnext]; exact hpidlt) hpidne_h]
            rw [getKids_deleteAll (by rw [delSet_noFail]; exact hpid_not_del)]
            unfold getKids
            rw [hfePB]
            simp only [Option.map_some', Option.some.injEq]
            rw [delSet_noFail]
            exact List.filter_eq_self.mpr (fun a ha => by
              simpa using hdisjP a ha)
          have hfindP := findEntry_of_getData_getKids hgdP hgkP
          rw [resolveCallout_eq hfindP]
          rw [firstSuch_congr (fun k hk => ?_)]
          · exact hfsPB
          · have hklt : k < stB.nextId :=
              hB_OK.kids_lt k (kids_sub_allKidsL hfePB k hk)
            have hknd : k ∉ eH.2 := hdisjP k hk
            rw [getData_appendStore_low (by rw [hDnext]; exact hklt)]
            rw [getData_deleteAll_low (by rw [delSet_noFail]; exact hknd)]
        · have hgdC : getData (appendStore (deleteAll noFail stB eH.2) hid
              (bs.map NodeData.rendered)) cid = some eCB.1 := by
            rw [getData_appendStore_low (by rw [hDnext]; exact hcidlt)]
            rw [getData_deleteAll_low (by rw [delSet_noFail]; exact hcid_not_del)]
            unfold getData
            rw [hfeCB]
            rfl
          have hgkC : getKids (appendStore (deleteAll noFail stB eH.2) hid
              (bs.map NodeData.rendered)) cid = some eCB.2 := by
            rw [getKids_appendStore_other (by rw [hDnext]; exact hcidlt) hcidne_h]
            rw [getKids_deleteAll (by rw [delSet_noFail]; exact hcid_not_del)]
            unfold getKids
            rw [hfeCB]
            simp only [Option.map_some', Option.some.injEq]
            rw [delSet_noFail]
            exact List.filter_eq_self.mpr (fun a ha => by
              simpa using hdisjC a ha)
          have hfindC := findEntry_of_getData_getKids hgdC hgkC
          rw [resolveSection_eq hfindC]
          rw [firstSuch_congr (fun k hk => ?_)]
          · exact hfsCB
          · have hklt : k < stB.nextId :=
              hB_OK.kids_lt k (kids_sub_allKidsL hfeCB k hk)
            have hknd : k ∉ eH.2 := hdisjC k hk
            rw [getData_appendStore_low (by rw [hDnext]; exact hklt)]
            rw [getData_deleteAll_low (by rw [delSet_noFail]; exact hknd)]
        · intro k hk
          have hDOK := @deleteAll_preserves noFail stB pid eH.2 hB_OK
            hpid_not_del
          rw [keysOf_appendStore] at hk
          rw [nextId_appendStore]
          rcases List.mem_append.mp hk with hk | hk
          · have := hDOK.keys_lt k hk
            omega
          · have := (List.mem_range'_1.mp hk).2
            omega

theorem keysOf_deleteAll_sublist (o : Oracle) (ks : List Nat) (st : Store) :
    List.Sublist (keysOf (deleteAll o st ks)) (keysOf st) := by
  induction ks generalizing st with
  | nil => exact List.Sublist.refl _
  | cons k ks ih =>
    rw [deleteAll_cons]
    refine (ih _).trans ?_
    show List.Sublist (keysOf (deleteBlock o st k)) (keysOf st)
    unfold deleteBlock
    split
    · exact List.Sublist.refl _
    · exact keysL_filterMapDel_sublist st.entries k

/-- Claim C1: running the reconciliation twice in succession on the same
page with the same title and the same markdown summary leaves the
container (callout) and section (toggle-H3) ids unchanged across both
runs, and after the second run the section's direct children are exactly
the freshly created blocks rendered from the markdown in the second run
— no duplicates, and no leftover children from the first run. -/
theorem claim_C1_idempotent (st0 : Store) (pid : Nat) (title md : List Char)
    (st1 st2 : Store) (c1 h1 c2 h2 : Nat)
    (H : StoreOK st0 pid)
    (r1 : upsertSummaryInNotion noFail st0 pid title md = .ok (st1, c1, h1))
    (r2 : upsertSummaryInNotion noFail st1 pid title md = .ok (st2, c2, h2)) :
    c2 = c1 ∧ h2 = h1 ∧
    getKids st2 h1 =
      some (List.range' st1.nextId (createBlocksFromMarkdown md).length) ∧
    (List.range' st1.nextId (createBlocksFromMarkdown md).length).map
        (fun k => getData st2 k) =
      (createBlocksFromMarkdown md).map (fun b => some (NodeData.rendered b)) ∧
    (List.range' st1.nextId (createBlocksFromMarkdown md).length).Nodup := by
  obtain ⟨hres1, hres2, hkeys1⟩ := upsert_ok_resolves H r1
  obtain ⟨hc, hh, hrep⟩ := upsert_resolved hres1 hres2 r2
  subst hc
  subst hh
  obtain ⟨_, _, eH, hfeH, hdel, hst2⟩ := replaceChildren_ok hrep
  rw [delSet_noFail] at hdel
  subst hst2
  have hh2lt : h2 < st1.nextId := hkeys1 h2 (findEntry_mem_keys hfeH)
  have hDnext : (deleteAll noFail st1 eH.2).nextId = st1.nextId :=
    nextId_deleteAll _ _ _
  refine ⟨rfl, rfl, ?_, ?_, ?_⟩
  · rw [getKids_appendStore_self (by rw [hDnext]; exact hh2lt)]
    rw [getKids_deleteAll (by rw [delSet_noFail]; exact hdel)]
    unfold getKids
    rw [hfeH]
    simp only [Option.map_some', Option.some.injEq]
    rw [hDnext, delSet_noFail]
    rw [List.filter_eq_nil_iff.mpr (fun a ha => by simp [ha])]
    simp
  · have hkeysD : ∀ k ∈ keysOf (deleteAll noFail st1 eH.2),
        k < (deleteAll noFail st1 eH.2).nextId := by
      intro k hk
      rw [hDnext]
      exact hkeys1 k ((keysOf_deleteAll_sublist noFail eH.2 st1).subset hk)
    have hnew := @getData_appendStore_new (deleteAll noFail st1 eH.2) h2
      ((createBlocksFromMarkdown md).map NodeData.rendered) hkeysD
    rw [hDnext, List.length_map] at hnew
    rw [hnew, List.map_map]
    rfl
  · exact List.nodup_range' _ _

/-- A concrete page for the C1 witness: page 0 with an existing callout 1. -/
def c1Store0 : Store := ⟨[(0, NodeData.other 0, [1]), (1, NodeData.callout, [])], 2⟩

/-- The store after the first run on `c1Store0` ("hi" under "Summary"). -/
def c1Store1 : Store :=
  ⟨[(0, NodeData.other 0, [1]), (1, NodeData.callout, [2]),
    (2, NodeData.headingThree true [str "Summary"], [3]),
    (3, NodeData.rendered (Block.paragraph [plainPart (str "hi")]), [])], 4⟩

/-- The store after the second run. -/
def c1Store2 : Store :=
  ⟨[(0, NodeData.other 0, [1]), (1, NodeData.callout, [2]),
    (2, NodeData.headingThree true [str "Summary"], [4]),
    (4, NodeData.rendered (Block.paragraph [plainPart (str "hi")]), [])], 5⟩

/-- Witness for claim C1: a concrete double run, with the callout id 1 and
section id 2 stable and the section's children replaced by the second
run's freshly rendered block. -/
theorem claim_C1_idempotent_witness :
    (1 : Nat) = 1 ∧ (2 : Nat) = 2 ∧
    getKids c1Store2 2 =
      some (List.range' c1Store1.nextId
        (createBlocksFromMarkdown (str "hi")).length) ∧
    (List.range' c1Store1.nextId
        (createBlocksFromMarkdown (str "hi")).length).map
        (fun k => getData c1Store2 k) =
      (createBlocksFromMarkdown (str "hi")).map
        (fun b => some (NodeData.rendered b)) ∧
    (List.range' c1Store1.nextId
      (createBlocksFromMarkdown (str "hi")).length).Nodup :=
  claim_C1_idempotent c1Store0 0 (str "Summary") (str "hi") c1Store1 c1Store2
    1 2 1 2
    ⟨by decide, by decide, by decide, by decide, by decide, by decide⟩
    (by rfl) (by rfl)

/-! ## Failure policy of the reconciliation (claim C2) -/

theorem resolveCalloutStep_of_resolved {o : Oracle} {st : Store} {pid c : Nat}
    (hlf : o.listFail pid = false) (hc : resolveCallout st pid = some c) :
    resolveCalloutStep o st pid = .ok (st, c) := by
  obtain ⟨e, hfe, hfs⟩ := resolveCallout_inv hc
  simp [resolveCalloutStep, listChildren, hlf, hfe, hfs]

theorem resolveSectionStep_of_resolved {o : Oracle} {st : Store} {c : Nat}
    {title : List Char} {h : Nat}
    (hlf : o.listFail c = false) (hh : resolveSection st c title = some h) :
    resolveSectionStep o st c title = .ok (st, h) := by
  obtain ⟨e, hfe, hfs⟩ := resolveSection_inv hh
  simp [resolveSectionStep, listChildren, hlf, hfe, hfs]

/-- Claim C2: during reconciliation a failed per-child delete is
non-fatal — the remaining children are still deleted and the new blocks
are still appended, leaving exactly the failed-to-delete children (in
order) followed by all new blocks — whereas a failure of any
children-listing read, of the container create, of the section create, or
of the final batched append aborts the whole reconciliation with an
error. -/
theorem claim_C2_delete_tolerance_and_fatal_failures :
    (∀ (o : Oracle) (st : Store) (pid : Nat) (title : List Char)
       (bs : List Block) (st' : Store) (c' h' c h : Nat) (ks : List Nat),
       resolveCallout st pid = some c →
       resolveSection st c title = some h →
       getKids st h = some ks →
       (∀ k ∈ keysOf st, k < st.nextId) →
       upsertSummary o st pid title bs = .ok (st', c', h') →
       c' = c ∧ h' = h ∧
       getKids st' h = some (ks.filter (fun k => o.deleteFail k) ++
         List.range' st.nextId bs.length) ∧
       (List.range' st.nextId bs.length).map (fun k => getData st' k) =
         bs.map (fun b => some (NodeData.rendered b))) ∧
    (∀ (o : Oracle) (st : Store) (pid : Nat) (title : List Char)
       (bs : List Block),
       o.listFail pid = true →
       upsertSummary o st pid title bs = .error ()) ∧
    (∀ (o : Oracle) (st : Store) (pid : Nat) (title : List Char)
       (bs : List Block) (e : NodeData × List Nat),
       o.listFail pid = false → findEntry st.entries pid = some e →
       firstSuch st isCallout e.2 = none → o.appendFail pid = true →
       upsertSummary o st pid title bs = .error ()) ∧
    (∀ (o : Oracle) (st : Store) (pid : Nat) (title : List Char)
       (bs : List Block) (c : Nat),
       o.listFail pid = false → resolveCallout st pid = some c →
       o.listFail c = true →
       upsertSummary o st pid title bs = .error ()) ∧
    (∀ (o : Oracle) (st : Store) (pid : Nat) (title : List Char)
       (bs : List Block) (c : Nat) (e : NodeData × List Nat),
       o.listFail pid = false → resolveCallout st pid = some c →
       o.listFail c = false → findEntry st.entries c = some e →
       firstSuch st (isMatchingH3 title) e.2 = none → o.appendFail c = true →
       upsertSummary o st pid title bs = .error ()) ∧
    (∀ (o : Oracle) (st : Store) (pid : Nat) (title : List Char)
       (bs : List Block) (c h : Nat),
       o.listFail pid = false → resolveCallout st pid = some c →
       o.listFail c = false → resolveSection st c title = some h →
       o.listFail h = true →
       upsertSummary o st pid title bs = .error ()) ∧
    (∀ (o : Oracle) (st : Store) (pid : Nat) (title : List Char)
       (bs : List Block) (c h : Nat),
       o.listFail pid = false → resolveCallout st pid = some c →
       o.listFail c = false → resolveSection st c title = some h →
       o.listFail h = false → o.appendFail h = true →
       upsertSummary o st pid title bs = .error ()) := by
  refine ⟨?_, ?_, ?_, ?_, ?_, ?_, ?_⟩
  · intro o st pid title bs st' c' h' c h ks hc hh hks hkeys hok
    obtain ⟨hcc, hhh, hrep⟩ := upsert_resolved hc hh hok
    obtain ⟨_, _, eH, hfeH, hdel, hst'⟩ := replaceChildren_ok hrep
    have hks2 : eH.2 = ks := by
      unfold getKids at hks
      rw [hfeH] at hks
      simpa using hks
    subst hks2
    subst hst'
    have hhlt : h < st.nextId := hkeys h (findEntry_mem_keys hfeH)
    have hDnext : (deleteAll o st eH.2).nextId = st.nextId :=
      nextId_deleteAll o eH.2 st
    refine ⟨hcc, hhh, ?_, ?_⟩
    · rw [getKids_appendStore_self (by rw [hDnext]; exact hhlt)]
      rw [getKids_deleteAll hdel]
      unfold getKids
      rw [hfeH]
      simp only [Option.map_some', Option.some.injEq]
      rw [hDnext, List.length_map]
      congr 1
      apply List.filter_congr
      intro x hx
      by_cases hf : o.deleteFail x
      · simp [mem_delSet, hf, hx]
      · simp [mem_delSet, hf, hx]
    · have hkeysD : ∀ k ∈ keysOf (deleteAll o st eH.2),
          k < (deleteAll o st eH.2).nextId := by
        intro k hk
        rw [hDnext]
        exact hkeys k ((keysOf_deleteAll_sublist o eH.2 st).subset hk)
      have hnew := @getData_appendStore_new (deleteAll o st eH.2) h
        (bs.map NodeData.rendered) hkeysD
      rw [hDnext, List.length_map] at hnew
      rw [hnew, List.map_map]
      rfl
  · intro o st pid title bs hlf
    simp [upsertSummary, resolveCalloutStep, listChildren, hlf]
  · intro o st pid title bs e hlf hfe hfs haf
    simp [upsertSummary, resolveCalloutStep, listChildren, appendChildren,
      hlf, hfe, hfs, haf]
  · intro o st pid title bs c hlf hc hlc
    rw [show upsertSummary o st pid title bs =
      (match resolveCalloutStep o st pid with
       | .error e => .error e
       | .ok (st1, cid) =>
         match resolveSectionStep o st1 cid title with
         | .error e => .error e
         | .ok (st2, hid) =>
           match replaceChildren o st2 hid (bs.map NodeData.rendered) with
           | .error e => .error e
           | .ok st4 => .ok (st4, cid, hid)) from rfl]
    rw [resolveCalloutStep_of_resolved hlf hc]
    simp [resolveSectionStep, listChildren, hlc]
  · intro o st pid title bs c e hlf hc hlc hfe hfs haf
    rw [show upsertSummary o st pid title bs =
      (match resolveCalloutStep o st pid with
       | .error e => .error e
       | .ok (st1, cid) =>
         match resolveSectionStep o st1 cid title with
         | .error e => .error e
         | .ok (st2, hid) =>
           match replaceChildren o st2 hid (bs.map NodeData.rendered) with
           | .error e => .error e
           | .ok st4 => .ok (st4, cid, hid)) from rfl]
    rw [resolveCalloutStep_of_resolved hlf hc]
    simp [resolveSectionStep, listChildren, appendChildren, hlc, hfe, hfs, haf]
  · intro o st pid title bs c h hlf hc hlc hh hlh
    rw [show upsertSummary o st pid title bs =
      (match resolveCalloutStep o st pid with
       | .error e => .error e
       | .ok (st1, cid) =>
         match resolveSectionStep o st1 cid title with
         | .error e => .error e
         | .ok (st2, hid) =>
           match replaceChildren o st2 hid (bs.map NodeData.rendered) with
           | .error e => .error e
           | .ok st4 => .ok (st4, cid, hid)) from rfl]
    rw [resolveCalloutStep_of_resolved hlf hc]
    simp [resolveSectionStep_of_resolved hlc hh, replaceChildren,
      listChildren, hlh]
  · intro o st pid title bs c h hlf hc hlc hh hlh haf
    obtain ⟨e, hfe, hfs⟩ := resolveSection_inv hh
    obtain ⟨_, eh, hfeh, _⟩ := firstSuch_mem hfs
    rw [show upsertSummary o st pid title bs =
      (match resolveCalloutStep o st pid with
       | .error e => .error e
       | .ok (st1, cid) =>
         match resolveSectionStep o st1 cid title with
         | .error e => .error e
         | .ok (st2, hid) =>
           match replaceChildren o st2 hid (bs.map NodeData.rendered) with
           | .error e => .error e
           | .ok st4 => .ok (st4, cid, hid)) from rfl]
    rw [resolveCalloutStep_of_resolved hlf hc]
    simp [resolveSectionStep_of_resolved hlc hh, replaceChildren,
      listChildren, appendChildren, hlh, hfeh, haf]

/-- An oracle whose only failure is the delete of block 4. -/
def c2Oracle : Oracle := ⟨fun _ => false, fun _ => false, fun i => i == 4⟩

/-- A page (0) with a callout (1) containing a "Summary" toggle (2) that
already has three rendered children (3, 4, 5). -/
def c2Store0 : Store :=
  ⟨[(0, NodeData.other 0, [1]), (1, NodeData.callout, [2]),
    (2, NodeData.headingThree true [str "Summary"], [3, 4, 5]),
    (3, NodeData.rendered (Block.paragraph []), []),
    (4, NodeData.rendered (Block.paragraph []), []),
    (5, NodeData.rendered (Block.paragraph []), [])], 6⟩

/-- The fresh blocks appended by the reconciliation run. -/
def c2Blocks : List Block :=
  [Block.paragraph [plainPart (str "p1")], Block.bulleted [plainPart (str "p2")]]

/-- The store produced by the run on `c2Store0` under `c2Oracle`: children
3 and 5 are gone, the failed-to-delete child 4 survives, followed by the
two new blocks 6 and 7. -/
def c2Store1 : Store :=
  ⟨[(0, NodeData.other 0, [1]), (1, NodeData.callout, [2]),
    (2, NodeData.headingThree true [str "Summary"], [4, 6, 7]),
    (4, NodeData.rendered (Block.paragraph []), []),
    (6, NodeData.rendered (Block.paragraph [plainPart (str "p1")]), []),
    (7, NodeData.rendered (Block.bulleted [plainPart (str "p2")]), [])], 8⟩

theorem claim_C2_delete_tolerance_and_fatal_failures_witness :
    1 = 1 ∧ 2 = 2 ∧
    getKids c2Store1 2 = some (([3, 4, 5] : List Nat).filter
      (fun k => c2Oracle.deleteFail k) ++
      List.range' c2Store0.nextId c2Blocks.length) ∧
    (List.range' c2Store0.nextId c2Blocks.length).map
      (fun k => getData c2Store1 k) =
      c2Blocks.map (fun b => some (NodeData.rendered b)) :=
  claim_C2_delete_tolerance_and_fatal_failures.1 c2Oracle c2Store0 0
    (str "Summary") c2Blocks c2Store1 1 2 1 2 [3, 4, 5]
    (by decide) (by decide) (by decide) (by decide) (by rfl)

end GeminiNotion
